import Mathlib

/-!
# Verification of the annotator anchoring core

A shallow embedding, in Lean 4, of the anchoring core of the `annotator`
library (selector resolution, approximate quote matching, character-offset
resolution, and the XPath-style structural locator), together with theorems
settling the specification claims about it.

Conventions used throughout:

* JavaScript strings are modelled as `List Char` (one entry per UTF-16 code
  unit; all inputs considered here are in the basic plane, where code units
  and code points agree).
* JavaScript numbers are modelled as `ℚ` where fractional values occur
  (match scores, error budgets, position hints) and as `Nat`/`Int` where the
  source only ever holds integers.
* Fallible code (functions that `throw`) is modelled with `Except String`,
  carrying the thrown message.
* A DOM subtree is modelled by the inductive `DomNode` (elements, text
  nodes, comments); a `Text` node reference is identified by the index of
  the leaf in document order where node identity matters.
-/

namespace Annotator

/-! # Definitions -/

/-! ## Basic string utilities (JS string primitives over `List Char`) -/

/-- The ASCII whitespace characters matched by the JavaScript `\s` class
(the sources only ever normalize ASCII whitespace). -/
def isWsChar (c : Char) : Bool :=
  c = ' ' || c = '\t' || c = '\n' || c = '\r' || c = '\x0b' || c = '\x0c'

/-- Index of the first occurrence of `pat` in `s` (`String.prototype.indexOf`
with no position argument), as an offset into `s`. -/
def firstMatch : List Char → List Char → Option Nat
  | s, pat =>
    if pat.isPrefixOf s then some 0
    else
      match s with
      | [] => none
      | _ :: t => (firstMatch t pat).map (· + 1)

/-- `text.indexOf(pat, start)` (for a non-negative `start`). -/
def jsIndexOfFrom (text pat : List Char) (start : Nat) : Option Nat :=
  (firstMatch (text.drop start) pat).map (· + start)

/-- `s.includes(sub)`. -/
def jsIncludes (s sub : List Char) : Bool :=
  (firstMatch s sub).isSome

/-- `s.slice(a, b)` for non-negative clamped arguments (the sources clamp
with `Math.max`/`Math.min` before slicing). -/
def jsSlice (s : List Char) (a b : Nat) : List Char :=
  (s.drop a).take (b - a)

/-! ## Stable sorting (model of `Array.prototype.sort` with a comparator)

ECMAScript 2019 requires `Array.prototype.sort` to be stable.  We model a
stable sort by straight insertion: `insertBy le x l` places `x` before the
first element `y` with `le x y` (so an element arriving earlier stays before
later elements it compares equal to). -/

def insertBy (le : α → α → Bool) (x : α) : List α → List α
  | [] => [x]
  | y :: ys => if le x y then x :: y :: ys else y :: insertBy le x ys

def sortBy (le : α → α → Bool) : List α → List α
  | [] => []
  | x :: xs => insertBy le x (sortBy le xs)

/-! ## Edit distance (for the spec-model of the external approximate search) -/

/-- Levenshtein distance over characters: minimal number of single-character
insertions, deletions and substitutions. -/
def editDist : List Char → List Char → Nat
  | [], ys => ys.length
  | _ :: xs, [] => xs.length + 1
  | x :: xs, y :: ys =>
    min (min (editDist xs (y :: ys) + 1) (editDist (x :: xs) ys + 1))
      (editDist xs ys + (if x = y then 0 else 1))
termination_by xs ys => xs.length + ys.length

/-! ## The approximate quote matcher (`src/anchors/match-quote.ts`) -/

/-- A match candidate as produced by the search phase (the `Match` type of
the `approx-string-match` package): `endPos` models the source's `end`
field (a reserved word in Lean). -/
structure StringMatch where
  start : Nat
  endPos : Nat
  errors : Nat
deriving DecidableEq, Repr

/-- A scored match as returned by `matchQuote`; `endPos` models `end`. -/
structure Match where
  start : Nat
  endPos : Nat
  score : ℚ
deriving DecidableEq, Repr

/-- Optional context for `matchQuote`; `pre`/`suf` model the source's
`prefix`/`suffix` fields (reserved words in Lean), `hint` the numeric
position hint. -/
structure Context where
  pre : Option (List Char) := none
  suf : Option (List Char) := none
  hint : Option ℚ := none

/-- JS truthiness of an optional string (`undefined` and `""` are falsy). -/
def strTruthy : Option (List Char) → Bool
  | none => false
  | some s => !s.isEmpty

/-- The exact-occurrence scan of `search`: repeatedly calls
`text.indexOf(str, matchPos)` and restarts one character after each hit,
collecting every (possibly overlapping) occurrence in ascending order.
The source loop is only ever reached with a non-empty `str` (both callers
guard); on an empty pattern the JS loop would not terminate, so the
embedding returns `[]` for that unreachable case. -/
def collectExact (text pat : List Char) (matchPos : Nat) : List StringMatch :=
  if _hpat : pat = [] then []
  else
    match h : jsIndexOfFrom text pat matchPos with
    | none => []
    | some i =>
      ⟨i, i + pat.length, 0⟩ :: collectExact text pat (i + 1)
termination_by text.length + 1 - matchPos
decreasing_by
  have hfm_le : ∀ (s : List Char) (k : Nat), firstMatch s pat = some k →
      k ≤ s.length := by
    intro s
    induction s with
    | nil =>
      intro k hk
      rw [firstMatch] at hk
      split at hk
      · simp only [Option.some.injEq] at hk; omega
      · simp at hk
    | cons c t ih =>
      intro k hk
      rw [firstMatch] at hk
      split at hk
      · simp only [Option.some.injEq] at hk; omega
      · cases hm : firstMatch t pat with
        | none => rw [hm] at hk; simp at hk
        | some j =>
          rw [hm] at hk
          simp only [Option.map_some', Option.some.injEq] at hk
          have := ih j hm
          simp only [List.length_cons]
          omega
  have hfm_pre : ∀ (s : List Char) (k : Nat), firstMatch s pat = some k →
      pat.isPrefixOf (s.drop k) := by
    intro s
    induction s with
    | nil =>
      intro k hk
      rw [firstMatch] at hk
      split at hk
      · rename_i hp
        simp only [Option.some.injEq] at hk
        subst hk
        simpa using hp
      · simp at hk
    | cons c t ih =>
      intro k hk
      rw [firstMatch] at hk
      split at hk
      · rename_i hp
        simp only [Option.some.injEq] at hk
        subst hk
        simpa using hp
      · cases hm : firstMatch t pat with
        | none => rw [hm] at hk; simp at hk
        | some j =>
          rw [hm] at hk
          simp only [Option.map_some', Option.some.injEq] at hk
          subst hk
          simpa using ih j hm
  have h1 : matchPos ≤ i := by
    unfold jsIndexOfFrom at h
    cases hm : firstMatch (text.drop matchPos) pat with
    | none => rw [hm] at h; simp at h
    | some j =>
      rw [hm] at h
      simp only [Option.map_some', Option.some.injEq] at h
      omega
  have h2 : i + pat.length ≤ text.length := by
    unfold jsIndexOfFrom at h
    cases hm : firstMatch (text.drop matchPos) pat with
    | none => rw [hm] at h; simp at h
    | some j =>
      rw [hm] at h
      simp only [Option.map_some', Option.some.injEq] at h
      have ha := hfm_le _ _ hm
      simp only [List.length_drop] at ha
      have hb := hfm_pre _ _ hm
      rw [List.drop_drop] at hb
      have h4 : pat.length ≤ (text.drop (matchPos + j)).length :=
        (List.isPrefixOf_iff_prefix.mp hb).length_le
      simp only [List.length_drop] at h4
      have h5 : (1:Nat) ≤ pat.length := by
        cases pat with
        | nil => exact absurd rfl _hpat
        | cons _ _ => simp
      omega
  have h3 : (1:Nat) ≤ pat.length := by
    cases pat with
    | nil => exact absurd rfl _hpat
    | cons _ _ => simp
  omega

/-- The type of the external `approx-string-match` search function: given
text, pattern and a maximum error budget, produce candidate matches. -/
abbrev ApproxSearch := List Char → List Char → ℚ → List StringMatch

/-- Modelled from the spec: the external `approx-string-match` library
(`approxSearch`), absent from this repository, is specified as a "bounded
approximate search allowing up to `maxErrors` character edits (insertions,
deletions, substitutions), producing a list of `(start, end, errors)`
candidates".  We enumerate every span of `text` whose edit distance to
`pat` is within `maxErrors`, reporting that distance as `errors`, ordered
best (fewest errors) first by a stable sort. -/
def approxSearchSpec : ApproxSearch := fun text pat maxErrors =>
  let cands :=
    (List.range (text.length + 1)).flatMap (fun s =>
      (List.range (text.length + 1)).filterMap (fun e =>
        if s ≤ e then
          let d := editDist (jsSlice text s e) pat
          if (d : ℚ) ≤ maxErrors then some ⟨s, e, d⟩ else none
        else none))
  sortBy (fun a b => a.errors ≤ b.errors) cands

/-- `search(text, str, maxErrors)`: fast scan for exact occurrences first;
only if none exist, fall back to the (expensive) approximate search. -/
def search (approx : ApproxSearch) (text str : List Char) (maxErrors : ℚ) :
    List StringMatch :=
  let exactMatches := collectExact text str 0
  if exactMatches.length > 0 then exactMatches
  else approx text str maxErrors

/-- `textMatchScore(text, str)`: similarity in `[0,1]` between `text` and
`str` via the best match of `str` in `text` with budget `str.length`.
The `matches[0]` access is modelled by a match on the head; the `[]` case
cannot occur for a search that always has the empty-span candidate within
budget `str.length` (in JS it would throw). -/
def textMatchScore (approx : ApproxSearch) (text str : List Char) : ℚ :=
  if str.length = 0 ∨ text.length = 0 then 0
  else
    match search approx text str (str.length : ℚ) with
    | [] => 0
    | m :: _ => 1 - (m.errors : ℚ) / (str.length : ℚ)

/-- `scoreMatch` (the closure inside `matchQuote`): weighted combination of
quote, context and position similarity, normalized by the weight sum 92. -/
def scoreMatch (approx : ApproxSearch) (text quote : List Char)
    (context : Context) (m : StringMatch) : ℚ :=
  let quoteWeight : ℚ := 50
  let preWeight : ℚ := 20
  let sufWeight : ℚ := 20
  let posWeight : ℚ := 2
  let quoteScore : ℚ := 1 - (m.errors : ℚ) / (quote.length : ℚ)
  let preScore : ℚ :=
    if strTruthy context.pre then
      textMatchScore approx
        (jsSlice text (m.start - (context.pre.getD []).length) m.start)
        (context.pre.getD [])
    else 1
  let sufScore : ℚ :=
    if strTruthy context.suf then
      textMatchScore approx
        (jsSlice text m.endPos (m.endPos + (context.suf.getD []).length))
        (context.suf.getD [])
    else 1
  let posScore : ℚ :=
    match context.hint with
    | some hint => 1 - |(m.start : ℚ) - hint| / (text.length : ℚ)
    | none => 1
  (quoteWeight * quoteScore + preWeight * preScore + sufWeight * sufScore +
      posWeight * posScore) /
    (quoteWeight + preWeight + sufWeight + posWeight)

/-- `matchQuote(text, quote, context)`: find the best match for `quote` in
`text`.  Parametrized by the external approximate search `approx`. -/
def matchQuote (approx : ApproxSearch) (text quote : List Char)
    (context : Context) : Option Match :=
  if quote.length = 0 then none
  else
    let maxErrors : ℚ := min 256 ((quote.length : ℚ) / 2)
    -- `matchList` models the source's local `matches` (a reserved word here)
    let matchList := search approx text quote maxErrors
    if matchList.length = 0 then none
    else
      let scoredMatches := matchList.map (fun m =>
        ({ start := m.start, endPos := m.endPos,
           score := scoreMatch approx text quote context m } : Match))
      let sorted := sortBy (fun a b => b.score ≤ a.score) scoredMatches
      match sorted with
      | [] => none
      | bestMatch :: _ =>
        if strTruthy context.pre || strTruthy context.suf then
          let beforeText := jsSlice text (bestMatch.start - 64) bestMatch.start
          let afterText :=
            jsSlice text bestMatch.endPos
              (min text.length (bestMatch.endPos + 64))
          if strTruthy context.pre &&
              !(jsIncludes beforeText (context.pre.getD [])) then none
          else if strTruthy context.suf &&
              !(jsIncludes afterText (context.suf.getD [])) then none
          else some bestMatch
        else some bestMatch

/-! ## The resolution engine (`src/html/anchor.ts`)

The DOM-dependent parts are abstracted: `querySelector` (imported from
`./querySelector`, a module absent from src/) resolves an anchor object to
a document `Range`, failing when the strategy fails; a resolved range is
observed by the engine only through `range.toString()`.  The embedding of
`anchor` therefore takes the outcome of each strategy's resolution
(`fromSelector` + `querySelector`, with any synchronous throw folded into
the rejection) as an `Except String DomRange` parameter. -/

/-- A resolved document range, observed through its text
(`range.toString()`). -/
structure DomRange where
  text : String
deriving DecidableEq, Repr

/-- `RangeSelector` payload (`startContainer`/`endContainer` are XPath
strings). -/
structure RangeSelData where
  startContainer : String
  startOffset : Int
  endContainer : String
  endOffset : Int
deriving DecidableEq, Repr

/-- `TextPositionSelector` payload; `none` models `undefined` fields (the
source applies `?? 0` before use); `endPos` models `end`. -/
structure PosSelData where
  start : Option Int
  endPos : Option Int
deriving DecidableEq, Repr

/-- `TextQuoteSelector` payload; `pre`/`suf` model `prefix`/`suffix`,
`none` models `undefined`. -/
structure QuoteSelData where
  exact : Option String
  pre : Option String
  suf : Option String
deriving DecidableEq, Repr

/-- A selector tagged with its `type` discriminator; `unknown` stands for
any unrecognized tag (hits the `default` case of the source's switch). -/
inductive SelectorWithType where
  | rangeSelector (s : RangeSelData)
  | textPositionSelector (s : PosSelData)
  | textQuoteSelector (s : QuoteSelData)
  | unknown
deriving DecidableEq, Repr

/-- The mutable locals of `anchor` filled by the `selectors.forEach`
switch (plus `options.hint`, which the loop overwrites from a position
selector's `start`). -/
structure CollectState where
  textPositionSelector : Option PosSelData
  textQuoteSelector : Option QuoteSelData
  rangeSelector : Option RangeSelData
  hint : Option Int
deriving DecidableEq, Repr

/-- The selector-collection loop of `anchor`: the last selector of each
kind wins; seeing a position selector also sets `options.hint` to its
`start`. -/
def collectSelectors (selectors : List SelectorWithType)
    (hint0 : Option Int) : CollectState :=
  selectors.foldl (fun st sel =>
    match sel with
    | .textPositionSelector s =>
      { st with textPositionSelector := some s, hint := s.start }
    | .textQuoteSelector s => { st with textQuoteSelector := some s }
    | .rangeSelector s => { st with rangeSelector := some s }
    | .unknown => st)
    ⟨none, none, none, hint0⟩

/-- The JS-truthy value of `textQuoteSelector?.exact` (absent selector,
absent `exact` and empty `exact` are all falsy). -/
def quoteExactTruthy : Option QuoteSelData → Option String
  | some q =>
    match q.exact with
    | some e => if e = "" then none else some e
    | none => none
  | none => none

/-- `maybeAssertQuote`: throw "quote mismatch" when a truthy stored quote
differs from the resolved range's text, else pass the range through. -/
def maybeAssertQuote (textQuoteSelector : Option QuoteSelData)
    (range : DomRange) : Except String DomRange :=
  match quoteExactTruthy textQuoteSelector with
  | some e => if range.text ≠ e then .error "quote mismatch" else .ok range
  | none => .ok range

/-- `promise.catch(f)`: keep a fulfilled value, recover from a rejection
by running `f`. -/
def exceptCatch (p : Except String α) (f : Unit → Except String α) :
    Except String α :=
  match p with
  | .ok v => .ok v
  | .error _ => f ()

/-- The promise chain of `anchor`, starting from the rejected
"unable to anchor" promise and adding one catch clause per present
selector kind, in priority order Range → TextPosition → TextQuote.
Quote assertion is applied to the range and position strategies only. -/
def anchorCore (rangeSelector : Option RangeSelData)
    (textPositionSelector : Option PosSelData)
    (textQuoteSelector : Option QuoteSelData)
    (rangeOutcome posOutcome quoteOutcome : Except String DomRange) :
    Except String (String × DomRange) :=
  let promise0 : Except String (String × DomRange) :=
    .error "unable to anchor"
  let promise1 :=
    match rangeSelector with
    | none => promise0
    | some _ => exceptCatch promise0 (fun _ =>
        (rangeOutcome.bind (maybeAssertQuote textQuoteSelector)).map
          (fun range => ("range", range)))
  let promise2 :=
    match textPositionSelector with
    | none => promise1
    | some _ => exceptCatch promise1 (fun _ =>
        (posOutcome.bind (maybeAssertQuote textQuoteSelector)).map
          (fun range => ("text-position", range)))
  let promise3 :=
    match textQuoteSelector with
    | none => promise2
    | some _ => exceptCatch promise2 (fun _ =>
        quoteOutcome.map (fun range => ("text-quote", range)))
  promise3

/-- `anchor(root, selectors, options)`: collect the selectors, then run
the priority chain.  The three outcome parameters stand for the resolution
results of the three strategies against the live document. -/
def anchor (selectors : List SelectorWithType)
    (rangeOutcome posOutcome quoteOutcome : Except String DomRange) :
    Except String (String × DomRange) :=
  let st := collectSelectors selectors none
  anchorCore st.rangeSelector st.textPositionSelector st.textQuoteSelector
    rangeOutcome posOutcome quoteOutcome

/-! ## A DOM subtree model -/

/-- A DOM node: an element with an ordered child list, a text node, or a
comment.  Tag names and text are char lists (see the header); `nodeName`
of an element is its stored tag (as in the DOM, where HTML elements carry
upper-case names and foreign elements their literal case). -/
inductive DomNode where
  | element (tag : List Char) (children : List DomNode)
  | text (data : List Char)
  | comment (data : List Char)

/-- `node.nodeName`. -/
def DomNode.nodeName : DomNode → List Char
  | .element tag _ => tag
  | .text _ => "#text".data
  | .comment _ => "#comment".data

mutual

/-- The text leaves under a node in document order (the sequence produced
by a `NodeIterator`/`TreeWalker` with `SHOW_TEXT`); comments carry no text
leaves. -/
def textLeaves : DomNode → List (List Char)
  | .text s => [s]
  | .comment _ => []
  | .element _ children => textLeavesList children

def textLeavesList : List DomNode → List (List Char)
  | [] => []
  | c :: cs => textLeaves c ++ textLeavesList cs

end

/-! ## C8: negative offsets at construction
(`src/anchors/text-position-anchor.ts`) -/

/-- `TextPositionAnchor`: the constructor stores `root`, `start`, `end`
verbatim (`endPos` models `end`); it contains no validation. -/
structure TextPositionAnchor where
  root : DomNode
  start : Int
  endPos : Int

/-- `TextPositionAnchor.fromSelector`: forwards the selector's `start` and
`end` straight to the constructor. -/
def TextPositionAnchor.fromSelector (root : DomNode) (start endPos : Int) :
    TextPositionAnchor :=
  ⟨root, start, endPos⟩

/-- Modelled from the spec: the `TextPosition` class of the text-range
module is code of this repository absent from src/ (only its test file
`text-range.spec.ts`, importing it from `./index`, remains).  Per the spec
(§4.1: "Negative offsets fail with `InvalidOffset` at construction time")
and the test "throws if offset is negative" (message 'Offset is invalid'),
its constructor fails exactly on a negative offset. -/
def textPositionCtor (element : DomNode) (offset : Int) :
    Except String (DomNode × Int) :=
  if offset < 0 then .error "Offset is invalid" else .ok (element, offset)

/-! ## C9: raw vs. normalized `exact`
(`src/anchors/text-quote-anchor.ts` and the annotation builder) -/

/-- `text.replace(/\s+/g, ' ')`: collapse every whitespace run into a
single space; `inWs` records whether the previous character was part of a
run still being collapsed. -/
def collapseWsAux : Bool → List Char → List Char
  | _, [] => []
  | inWs, c :: rest =>
    if isWsChar c then
      if inWs then collapseWsAux true rest
      else ' ' :: collapseWsAux true rest
    else c :: collapseWsAux false rest

/-- `String.prototype.trim` (ASCII whitespace) over char lists. -/
def trimWs (s : List Char) : List Char :=
  ((s.dropWhile isWsChar).reverse.dropWhile isWsChar).reverse

/-- `TextQuoteAnchor.normalizeText`: collapse whitespace runs to single
spaces, then trim both ends. -/
def normalizeText (s : List Char) : List Char :=
  trimWs (collapseWsAux false s)

/-- `replace(/^\s+/, '')`. -/
def trimStartWs (s : List Char) : List Char := s.dropWhile isWsChar

/-- `replace(/\s+$/, '')`. -/
def trimEndWs (s : List Char) : List Char :=
  (s.reverse.dropWhile isWsChar).reverse

/-- `s.substring(a, b)` for non-negative arguments: clamp both to the
length, swap if out of order. -/
def jsSubstring (s : List Char) (a b : Nat) : List Char :=
  let a' := min a s.length
  let b' := min b s.length
  (s.drop (min a' b')).take (max a' b' - min a' b')

/-- A constructed `TextQuoteAnchor`'s data: the literal quote and its
context snippets (`pre`/`suf` model `prefix`/`suffix`). -/
structure TextQuoteAnchorData where
  exact : List Char
  pre : List Char
  suf : List Char
deriving DecidableEq, Repr

/-- `TextQuoteAnchor.fromRange`, DOM-abstracted: `containerRawText` is the
concatenated raw text of the container element (its `textContent`, which
`getTextContent` normalizes), `rangeText` is `range.toString()`.  The
primary path stores the NORMALIZED selection text as `exact`; only when
the normalized text cannot be found in the normalized container text does
it fall back to the raw strings.  `CONTEXT_LENGTH = 32`. -/
def TextQuoteAnchor.fromRange (containerRawText rangeText : List Char) :
    Except String TextQuoteAnchorData :=
  let containerText := normalizeText containerRawText
  let exact := normalizeText rangeText
  match firstMatch containerText exact with
  | some exactStart =>
    let preStart := exactStart - 32
    let pre := trimWs (jsSubstring containerText preStart exactStart)
    let exactEnd := exactStart + exact.length
    let sufEnd := min containerText.length (exactEnd + 32)
    let suf := trimWs (jsSubstring containerText exactEnd sufEnd)
    .ok ⟨exact, pre, suf⟩
  | none =>
    -- "Normalized text not found, trying with raw text"
    let rawText := containerRawText
    let rawExact := rangeText
    match firstMatch rawText rawExact with
    | none => .error "Could not find exact text in container"
    | some rawStart =>
      let preStart := rawStart - 32
      let pre := trimWs (jsSubstring rawText preStart rawStart)
      let sufEnd := min rawText.length (rawStart + rawExact.length + 32)
      let suf := trimWs (jsSubstring rawText (rawStart + rawExact.length) sufEnd)
      .ok ⟨rawExact, pre, suf⟩

/-- The quote-selector fragment of `AnnotationBuilder.createAnnotation`:
`exact` is taken raw from `range.toString()` ("Preserve the exact text
including any leading spaces"); the context snippets are cut from the
TextProcessor's normalized streams around the mapped offsets
(`startText`/`startOffset` model `startInfo.text`/`startInfo.offset`,
likewise `endInfo`), stripping only leading whitespace from the prefix and
only trailing whitespace from the suffix. -/
def createAnnotationQuoteSelector (rangeText : List Char)
    (startText : List Char) (startOffset : Nat)
    (endText : List Char) (endOffset : Nat) : TextQuoteAnchorData :=
  let exact := rangeText
  let preStart := startOffset - 32
  let preEnd := startOffset
  let pre := trimStartWs (jsSubstring startText preStart preEnd)
  let sufStart := endOffset
  let sufEnd := min endText.length (sufStart + 32)
  let suf := trimEndWs (jsSubstring endText sufStart sufEnd)
  ⟨exact, pre, suf⟩

/-! ## C3: `resolveOffsets` (`src/text-range/resolveOffsets.ts`) -/

/-- A resolved text position: the text leaf (identified by its index in
the document-order leaf sequence) and a local offset inside it. -/
structure ResolvedTextPosition where
  node : Nat
  offset : Nat
deriving DecidableEq, Repr

/-- The main `while` loop of `resolveOffsets`: walk the text leaves in
document order, consuming each offset at the first leaf whose span covers
it.  `idx`/`cum` are the current leaf index and the accumulated `length`;
`textNode` is the loop's `textNode` variable ((index, data length) of the
last leaf looked at).  Returns (results, remaining offsets, final
`length`, final `textNode`). -/
def resolveLoop (nodes : List (List Char)) (idx cum : Nat)
    (offsets : List Nat) (textNode : Option (Nat × Nat)) :
    List ResolvedTextPosition × List Nat × Nat × Option (Nat × Nat) :=
  match offsets, nodes with
  | o :: os, n :: rest =>
    if cum + n.length > o then
      let r := resolveLoop (n :: rest) idx cum os (some (idx, n.length))
      (⟨idx, o - cum⟩ :: r.1, r.2.1, r.2.2.1, r.2.2.2)
    else
      resolveLoop rest (idx + 1) (cum + n.length) (o :: os)
        (some (idx, n.length))
  | [], _ => ([], [], cum, textNode)
  | o :: os, [] => ([], o :: os, cum, textNode)
termination_by offsets.length + nodes.length

/-- The boundary `while` loop of `resolveOffsets`: while offsets remain,
a `textNode` exists and the accumulated `length` equals the next offset,
emit the end of that node. -/
def boundaryLoop (length : Nat) (textNode : Option (Nat × Nat)) :
    List Nat → List ResolvedTextPosition × List Nat
  | [] => ([], [])
  | o :: os =>
    match textNode with
    | none => ([], o :: os)
    | some (i, len) =>
      if length = o then
        let r := boundaryLoop length textNode os
        (⟨i, len⟩ :: r.1, r.2)
      else ([], o :: os)

/-- `resolveOffsets(element, ...offsets)`: resolve character offsets in
`element`'s text stream to (text node, local offset) pairs; throws a
`RangeError('Offset exceeds text length')` if offsets remain unresolved. -/
def resolveOffsets (element : DomNode) (offsets : List Nat) :
    Except String (List ResolvedTextPosition) :=
  let nodes := textLeaves element
  let r := resolveLoop nodes 0 0 offsets none
  let b := boundaryLoop r.2.2.1 r.2.2.2 r.2.1
  if b.2 ≠ [] then .error "Offset exceeds text length"
  else .ok (r.1 ++ b.1)

/-- Total length of a leaf stream. -/
def streamLen (nodes : List (List Char)) : Nat :=
  (nodes.map List.length).sum

/-- Length of the stream before leaf `i`. -/
def cumLen (nodes : List (List Char)) (i : Nat) : Nat :=
  ((nodes.take i).map List.length).sum

/-- `p` is the position of global offset `o`: the leaf containing `o`,
with the correct local offset. -/
def containsAt (nodes : List (List Char)) (o : Nat)
    (p : ResolvedTextPosition) : Prop :=
  p.node < nodes.length ∧
  cumLen nodes p.node ≤ o ∧
  o < cumLen nodes p.node + (nodes.getD p.node []).length ∧
  p.offset = o - cumLen nodes p.node

/-- The offsets are sorted ascending (the precondition documented by
`resolveOffsets`). -/
def isAscending : List Nat → Bool
  | [] => true
  | [_] => true
  | a :: b :: t => a ≤ b && isAscending (b :: t)

/-- A concrete element for the C3 witness: leaves `"hello"` and
`" world"`, stream length 11. -/
def c3Element : DomNode :=
  DomNode.element "div".data
    [DomNode.text "hello".data,
     DomNode.comment "note".data,
     DomNode.element "b".data [DomNode.text " world".data]]

/-! ## C10: the XPath round trip
(`src/xpath-util/*` and `src/xpath/evaluateSimpleXpath.ts`) -/

/-- The character class `[A-Za-z0-9-]` of the simple-XPath regex. -/
def simpleChar (c : Char) : Bool :=
  c.isAlpha || c.isDigit || c = '-'

/-- `getNodeName(node)`: the lower-cased node name, with `#text` mapped to
`text()`. -/
def getNodeName (node : DomNode) : List Char :=
  let nodeName := node.nodeName.map Char.toLower
  if nodeName = "#text".data then "text()".data else nodeName

/-- `getNodePosition(node)`: 1-based occurrence index of the node among
its previous siblings with the same (case-sensitive) `nodeName`, counted
over `previousSibling` links including the node itself.  The node is
identified by its parent's child list and its index therein. -/
def getNodePosition (siblings : List DomNode) (i : Nat) : Nat :=
  (siblings.take (i + 1)).countP
    (fun s => s.nodeName == (siblings.getD i (DomNode.text [])).nodeName)

/-- Decimal digits of `n`, most significant first (`fuel`-driven; the fuel
`n + 1` always suffices). -/
def toDigitsAux : Nat → Nat → List Char
  | 0, _ => []
  | fuel + 1, n =>
    if n < 10 then [Char.ofNat (48 + n)]
    else toDigitsAux fuel (n / 10) ++ [Char.ofNat (48 + n % 10)]

/-- The decimal numeral of `n` (the `${pos}` interpolation). -/
def natToChars (n : Nat) : List Char :=
  toDigitsAux (n + 1) n

/-- Numeric value of a decimal digit character. -/
def digitVal (c : Char) : Nat := c.toNat - 48

/-- `parseInt` on an all-digit numeral (the only shape the validated
simple-XPath segments can carry). -/
def parseDigits (s : List Char) : Nat :=
  s.foldl (fun acc c => acc * 10 + digitVal c) 0

/-- `getPathSegment(node)`: `name[pos]`. -/
def getPathSegment (siblings : List DomNode) (i : Nat) : List Char :=
  getNodeName (siblings.getD i (DomNode.text [])) ++
    '[' :: natToChars (getNodePosition siblings i) ++ [']']

/-- The segment sequence accumulated by `xpathFromNode`'s upward
`parentNode` walk, root-first.  The node is identified by its child-index
path from `root`; over a tree value the same walk is expressed top-down
along the path.  `none` models the source's "Node is not a descendant of
root" throw (an index leaving the tree). -/
def xpathSegments : List Nat → DomNode → Option (List (List Char))
  | [], _ => some []
  | i :: rest, node =>
    match node with
    | .element _ children =>
      match children[i]? with
      | some c =>
        (xpathSegments rest c).map (fun segs => getPathSegment children i :: segs)
      | none => none
    | _ => none

/-- Assemble the final XPath string of `xpathFromNode`: every segment is
emitted followed by `/`, a leading `/` is prepended, and one trailing
slash is removed (`xpath.replace(/\/$/, '')`). -/
def buildXPath (segs : List (List Char)) : List Char :=
  let pre := segs.foldr (fun seg acc => seg ++ '/' :: acc) []
  let withSlash := '/' :: pre
  if withSlash.getLast? = some '/' then withSlash.dropLast else withSlash

/-- `xpathFromNode(node, root)` over the path-identified node. -/
def xpathFromNode (root : DomNode) (path : List Nat) : Option (List Char) :=
  (xpathSegments path root).map buildXPath

/-- The element children of a node (the DOM `element.children`
collection). -/
def isElementNode : DomNode → Bool
  | .element _ _ => true
  | _ => false

def DomNode.childElements : DomNode → List DomNode
  | .element _ cs => cs.filter isElementNode
  | _ => []

/-- The scan of `nthChildOfType`, with the running `matchIndex` (starting
at `-1` and incremented before the comparison with `index`). -/
def nthAux : List DomNode → List Char → Int → Int → Option DomNode
  | [], _, _, _ => none
  | c :: rest, upperName, index, matchIndex =>
    if c.nodeName.map Char.toUpper == upperName then
      if matchIndex + 1 = index then some c
      else nthAux rest upperName index (matchIndex + 1)
    else nthAux rest upperName index matchIndex

/-- `nthChildOfType(element, nodeName, index)`: the `index`-th (0-based)
element child whose tag matches `nodeName` case-insensitively. -/
def nthChildOfType (node : DomNode) (nodeName : List Char) (index : Int) :
    Option DomNode :=
  nthAux node.childElements (nodeName.map Char.toUpper) index (-1)

/-- Acceptance of the simple-XPath shape, a DFA equivalent to the source's
regex `^(\/[A-Za-z0-9-]+(\[[0-9]+\])?)+$`.  States: 0 start; 1 after `/`;
2 inside a name; 3 after `[`; 4 inside digits; 5 after `]`.  States 2 and
5 accept at end of input. -/
def xpathAccept : Nat → List Char → Bool
  | st, [] => st = 2 || st = 5
  | st, c :: rest =>
    if st = 0 then (if c = '/' then xpathAccept 1 rest else false)
    else if st = 1 then (if simpleChar c then xpathAccept 2 rest else false)
    else if st = 2 then
      (if simpleChar c then xpathAccept 2 rest
       else if c = '[' then xpathAccept 3 rest
       else if c = '/' then xpathAccept 1 rest
       else false)
    else if st = 3 then (if c.isDigit then xpathAccept 4 rest else false)
    else if st = 4 then
      (if c.isDigit then xpathAccept 4 rest
       else if c = ']' then xpathAccept 5 rest
       else false)
    else if st = 5 then (if c = '/' then xpathAccept 1 rest else false)
    else false

/-- `xpath.match(/^(\/[A-Za-z0-9-]+(\[[0-9]+\])?)+$/) !== null`. -/
def isSimpleXPath (xpath : List Char) : Bool :=
  xpathAccept 0 xpath

/-- `xpath.split('/')` over char lists. -/
def splitSlash : List Char → List (List Char)
  | [] => [[]]
  | c :: rest =>
    if c = '/' then [] :: splitSlash rest
    else
      match splitSlash rest with
      | [] => [[c]]
      | s :: ss => (c :: s) :: ss

/-- `segment.indexOf(ch)` (as an `Option`; `none` models `-1`). -/
def idxOfChar (s : List Char) (ch : Char) : Option Nat :=
  firstMatch s [ch]

/-- The `for (const segment of segments)` walk of `evaluateSimpleXPath`:
parse each `name` / `name[index]` segment, step into the n-th matching
child, return `null` (`none`) when absent or when the 1-based index was
below 1. -/
def evalSegments : List (List Char) → DomNode → Option DomNode
  | [], element => some element
  | segment :: rest, element =>
    match idxOfChar segment '[' with
    | some separatorPos =>
      let elementName := segment.take separatorPos
      let indexStr :=
        match idxOfChar segment ']' with
        | some closePos => jsSlice segment (separatorPos + 1) closePos
        | none =>
          -- unreachable for a validated simple XPath (JS `slice(…, -1)`)
          jsSlice segment (separatorPos + 1) (segment.length - 1)
      let elementIndex : Int := (parseDigits indexStr : Int) - 1
      if elementIndex < 0 then none
      else
        match nthChildOfType element elementName elementIndex with
        | none => none
        | some child => evalSegments rest child
    | none =>
      match nthChildOfType element segment 0 with
      | none => none
      | some child => evalSegments rest child

/-- `evaluateSimpleXPath(xpath, root)`: validate the shape (else throw),
split on `/`, shift the leading empty segment, and walk. -/
def evaluateSimpleXPath (xpath : List Char) (root : DomNode) :
    Except String (Option DomNode) :=
  if isSimpleXPath xpath = false then
    .error "Expression is not a simple XPath"
  else
    match splitSlash xpath with
    | [] => .ok (some root)
    | _ :: segments => .ok (evalSegments segments root)

/-- The node reached from `root` along a child-index path. -/
def nodeAtPath : DomNode → List Nat → Option DomNode
  | node, [] => some node
  | node, i :: rest =>
    match node with
    | .element _ children =>
      match children[i]? with
      | some c => nodeAtPath c rest
      | none => none
    | _ => none

/-- The root for the C10 counterexample: two sibling elements whose tags
differ only in case (as with an HTML element next to a foreign —
SVG/MathML — element in a real DOM). -/
def c10Root : DomNode :=
  DomNode.element "root".data
    [DomNode.element "TEXT".data [], DomNode.element "text".data []]

/-- The slash-joined segment list (`buildXPath` without the leading `/`
and without the trailing-slash removal). -/
def joinSegs : List (List Char) → List Char
  | [] => []
  | [s] => s
  | s :: rest => s ++ '/' :: joinSegs rest

/-- A well-formed `name[pos]` path segment as produced by
`getPathSegment`: a nonempty `[A-Za-z0-9-]` name and a nonempty bracketed
numeral. -/
def SegGood (seg : List Char) : Prop :=
  ∃ name ds, seg = name ++ '[' :: ds ++ [']'] ∧
    name ≠ [] ∧ (∀ c ∈ name, simpleChar c = true) ∧
    ds ≠ [] ∧ (∀ c ∈ ds, c.isDigit = true)

/-- A path step usable for the round trip: the child at index `i` is an
element, its tag is a nonempty `[A-Za-z0-9-]` name, and no preceding
sibling's name collides with the tag case-insensitively without being
equal to it. -/
def goodStep (children : List DomNode) (i : Nat) : Prop :=
  match children[i]? with
  | some (DomNode.element tag _) =>
    tag ≠ [] ∧ (∀ ch ∈ tag, simpleChar ch = true) ∧
    (∀ s ∈ children.take i, isElementNode s = true →
      s.nodeName.map Char.toUpper = tag.map Char.toUpper → s.nodeName = tag)
  | _ => False

/-- Every step of the child-index path is good (see `goodStep`). -/
def goodPath : DomNode → List Nat → Prop
  | _, [] => True
  | node, i :: rest =>
    match node with
    | .element _ children =>
      match children[i]? with
      | some c => goodStep children i ∧ goodPath c rest
      | none => False
    | _ => False

/-- A root whose sibling tags are case-consistent: two `div` children, the
second containing a `p`. -/
def c10WitnessRoot : DomNode :=
  DomNode.element "root".data
    [DomNode.element "div".data [],
     DomNode.element "div".data [DomNode.element "p".data []]]

/-! # Theorems -/

theorem firstMatch_le (s pat : List Char) :
    ∀ i, firstMatch s pat = some i → i ≤ s.length := by
  induction s with
  | nil =>
    intro i h
    rw [firstMatch] at h
    split at h
    · simp only [Option.some.injEq] at h
      omega
    · simp at h
  | cons c t ih =>
    intro i h
    rw [firstMatch] at h
    split at h
    · simp only [Option.some.injEq] at h
      omega
    · cases hm : firstMatch t pat with
      | none => rw [hm] at h; simp at h
      | some j =>
        rw [hm] at h
        simp only [Option.map_some', Option.some.injEq] at h
        have := ih j hm
        simp only [List.length_cons]
        omega

theorem firstMatch_isPrefix (s pat : List Char) :
    ∀ i, firstMatch s pat = some i → pat.isPrefixOf (s.drop i) := by
  induction s with
  | nil =>
    intro i h
    rw [firstMatch] at h
    split at h
    · rename_i hp
      simp only [Option.some.injEq] at h
      subst h
      simpa using hp
    · simp at h
  | cons c t ih =>
    intro i h
    rw [firstMatch] at h
    split at h
    · rename_i hp
      simp only [Option.some.injEq] at h
      subst h
      simpa using hp
    · cases hm : firstMatch t pat with
      | none => rw [hm] at h; simp at h
      | some j =>
        rw [hm] at h
        simp only [Option.map_some', Option.some.injEq] at h
        subst h
        simpa using ih j hm

theorem firstMatch_first (s pat : List Char) :
    ∀ i, firstMatch s pat = some i →
      ∀ j, j < i → ¬ pat.isPrefixOf (s.drop j) := by
  induction s with
  | nil =>
    intro i h
    rw [firstMatch] at h
    split at h
    · simp only [Option.some.injEq] at h
      omega
    · simp at h
  | cons c t ih =>
    intro i h j hj
    rw [firstMatch] at h
    split at h
    · simp only [Option.some.injEq] at h
      omega
    · rename_i hnp
      cases hm : firstMatch t pat with
      | none => rw [hm] at h; simp at h
      | some k =>
        rw [hm] at h
        simp only [Option.map_some', Option.some.injEq] at h
        subst h
        cases j with
        | zero => simpa using hnp
        | succ j' =>
          have := ih k hm j' (by omega)
          simpa using this

theorem jsIndexOfFrom_ge {text pat : List Char} {start i : Nat}
    (h : jsIndexOfFrom text pat start = some i) : start ≤ i := by
  unfold jsIndexOfFrom at h
  cases hm : firstMatch (text.drop start) pat with
  | none => rw [hm] at h; simp at h
  | some j =>
    rw [hm] at h
    simp only [Option.map_some', Option.some.injEq] at h
    omega

theorem jsIndexOfFrom_le {text pat : List Char} {start i : Nat}
    (hpat : pat ≠ []) (h : jsIndexOfFrom text pat start = some i) :
    i + pat.length ≤ text.length := by
  unfold jsIndexOfFrom at h
  cases hm : firstMatch (text.drop start) pat with
  | none => rw [hm] at h; simp at h
  | some j =>
    rw [hm] at h
    simp only [Option.map_some', Option.some.injEq] at h
    have h1 := firstMatch_le _ _ _ hm
    have h2 : (text.drop start).length = text.length - start := by simp
    have h3 := firstMatch_isPrefix _ _ _ hm
    rw [List.drop_drop] at h3
    have h4 : pat.length ≤ (text.drop (start + j)).length :=
      (List.isPrefixOf_iff_prefix.mp h3).length_le
    simp only [List.length_drop] at h4
    have h5 : pat.length ≥ 1 := by
      cases pat with
      | nil => exact absurd rfl hpat
      | cons _ _ => simp
    omega

theorem insertBy_perm (le : α → α → Bool) (x : α) (l : List α) :
    (insertBy le x l).Perm (x :: l) := by
  induction l with
  | nil => simp [insertBy]
  | cons y ys ih =>
    rw [insertBy]
    split
    · exact List.Perm.refl _
    · exact (List.Perm.cons y ih).trans (List.Perm.swap x y ys)

theorem sortBy_perm (le : α → α → Bool) (l : List α) :
    (sortBy le l).Perm l := by
  induction l with
  | nil => simp [sortBy]
  | cons x xs ih =>
    exact (insertBy_perm le x (sortBy le xs)).trans (List.Perm.cons x ih)

theorem sortBy_of_pairwise (le : α → α → Bool) (l : List α)
    (h : l.Pairwise (fun a b => le a b = true)) : sortBy le l = l := by
  induction l with
  | nil => rfl
  | cons x xs ih =>
    rw [List.pairwise_cons] at h
    rw [sortBy, ih h.2]
    cases xs with
    | nil => rfl
    | cons y ys => simp [insertBy, h.1 y (by simp)]

theorem mem_sortBy {le : α → α → Bool} {l : List α} {x : α}
    (h : x ∈ sortBy le l) : x ∈ l :=
  (sortBy_perm le l).mem_iff.mp h

/-! ## Properties of the exact-occurrence scan -/

theorem jsIndexOfFrom_isPrefix {text pat : List Char} {start i : Nat}
    (h : jsIndexOfFrom text pat start = some i) :
    pat.isPrefixOf (text.drop i) := by
  unfold jsIndexOfFrom at h
  cases hm : firstMatch (text.drop start) pat with
  | none => rw [hm] at h; simp at h
  | some j =>
    rw [hm] at h
    simp only [Option.map_some', Option.some.injEq] at h
    have hp := firstMatch_isPrefix _ _ _ hm
    rw [List.drop_drop] at hp
    rwa [show start + j = j + start by omega, h] at hp

theorem collectExact_eq_nil {text pat : List Char} {x : Nat} (hpat : pat ≠ [])
    (h : jsIndexOfFrom text pat x = none) : collectExact text pat x = [] := by
  rw [collectExact]
  simp only [dif_neg hpat]
  split
  · rfl
  · rename_i j hj
    rw [h] at hj
    cases hj

theorem collectExact_eq_cons {text pat : List Char} {x i : Nat}
    (hpat : pat ≠ []) (h : jsIndexOfFrom text pat x = some i) :
    collectExact text pat x =
      ⟨i, i + pat.length, 0⟩ :: collectExact text pat (i + 1) := by
  rw [collectExact]
  simp only [dif_neg hpat]
  split
  · rename_i hj
    rw [h] at hj
    cases hj
  · rename_i j hj
    rw [h] at hj
    cases hj
    rfl

theorem collectExact_mem (text pat : List Char) (s : Nat) :
    ∀ m ∈ collectExact text pat s,
      m.errors = 0 ∧ m.endPos = m.start + pat.length ∧
      m.start + pat.length ≤ text.length ∧
      pat.isPrefixOf (text.drop m.start) := by
  induction s using collectExact.induct text pat with
  | case1 x hpat =>
    rw [collectExact]
    simp [hpat]
  | case2 x hpat hnone =>
    rw [collectExact_eq_nil hpat hnone]
    simp
  | case3 x hpat i hfound ih =>
    rw [collectExact_eq_cons hpat hfound]
    intro m hm
    rcases List.mem_cons.mp hm with rfl | hm'
    · exact ⟨rfl, rfl, jsIndexOfFrom_le hpat hfound,
        jsIndexOfFrom_isPrefix hfound⟩
    · exact ih m hm'

/-! ## C4: exact occurrences win with maximal score -/

theorem scoreMatch_noContext (approx : ApproxSearch) (text quote : List Char)
    (m : StringMatch) (herr : m.errors = 0) :
    scoreMatch approx text quote {} m = 1 := by
  simp only [scoreMatch, strTruthy, herr]
  norm_num

/-- C4: for a non-empty `quote` occurring verbatim in a non-empty `text`,
`matchQuote` with no context returns the first verbatim occurrence (the
result of `text.indexOf(quote)`), with the maximal score 1; the result
holds for every approximate-search function, so the approximate search is
never consulted. -/
theorem C4_matchQuote_exact (approx : ApproxSearch) (text quote : List Char)
    (htext : text ≠ []) (hq : quote ≠ []) {i : Nat}
    (hfirst : jsIndexOfFrom text quote 0 = some i) :
    matchQuote approx text quote {} =
      some ⟨i, i + quote.length, 1⟩ := by
  have hlen : ¬ quote.length = 0 := by simpa using hq
  have hcoll := collectExact_eq_cons hq hfirst
  have hscore : ∀ m ∈ collectExact text quote 0,
      scoreMatch approx text quote {} m = 1 := fun m hm =>
    scoreMatch_noContext approx text quote m
      ((collectExact_mem text quote 0 m hm).1)
  have hsearch : search approx text quote (min 256 ((quote.length : ℚ) / 2)) =
      (⟨i, i + quote.length, 0⟩ : StringMatch) ::
        collectExact text quote (i + 1) := by
    unfold search
    rw [hcoll]
    simp
  unfold matchQuote
  rw [if_neg hlen]
  simp only [hsearch]
  rw [if_neg (by simp)]
  have hpair : (((⟨i, i + quote.length, 0⟩ : StringMatch) ::
        collectExact text quote (i + 1)).map (fun m =>
          ({ start := m.start, endPos := m.endPos,
             score := scoreMatch approx text quote {} m } : Match))).Pairwise
      (fun a b => (b.score ≤ a.score : Bool) = true) := by
    apply List.pairwise_of_forall_mem_list
    intro a ha b hb
    simp only [List.mem_map] at ha hb
    obtain ⟨ma, hma, rfl⟩ := ha
    obtain ⟨mb, hmb, rfl⟩ := hb
    have h1 := hscore ma (hcoll ▸ hma)
    have h2 := hscore mb (hcoll ▸ hmb)
    simp [h1, h2]
  rw [sortBy_of_pairwise _ _ hpair]
  simp only [List.map_cons]
  have := hscore ⟨i, i + quote.length, 0⟩
    (by rw [hcoll]; exact List.mem_cons_self _ _)
  simp [strTruthy, this]

/-- C4 witness: `"a"` occurs verbatim in `"aba"`; `matchQuote` returns the
first occurrence with score 1. -/
theorem C4_matchQuote_exact_witness :
    "aba".data ≠ [] ∧ "a".data ≠ [] ∧
    jsIndexOfFrom "aba".data "a".data 0 = some 0 ∧
    matchQuote approxSearchSpec "aba".data "a".data {} =
      some ⟨0, 0 + "a".data.length, 1⟩ :=
  ⟨by decide, by decide, by decide,
    C4_matchQuote_exact approxSearchSpec "aba".data "a".data (by decide)
      (by decide) (by decide)⟩

/-! ## C5: the strict context post-check -/

/-- C5: whenever `matchQuote` returns a match and a (non-empty) prefix or
suffix context string was supplied, the literal context string occurs in
the (up to) 64-character window immediately before/after the returned
candidate: a best-scoring candidate failing either strict window check is
never returned (`matchQuote` yields null instead). -/
theorem C5_matchQuote_strict_context (approx : ApproxSearch)
    (text quote : List Char) (ctx : Context) (m : Match)
    (h : matchQuote approx text quote ctx = some m) :
    (strTruthy ctx.pre = true →
      jsIncludes (jsSlice text (m.start - 64) m.start) (ctx.pre.getD []) = true) ∧
    (strTruthy ctx.suf = true →
      jsIncludes (jsSlice text m.endPos (min text.length (m.endPos + 64)))
        (ctx.suf.getD []) = true) := by
  simp only [matchQuote] at h
  split at h
  · simp at h
  · split at h
    · simp at h
    · split at h
      · simp at h
      · rename_i best tail hsorted
        split at h
        · -- a context string was supplied: the two strict checks were passed
          split at h
          · simp at h
          · split at h
            · simp at h
            · rename_i hprechk hsufchk
              simp only [Option.some.injEq] at h
              subst h
              constructor
              · intro hpre
                simp [hpre] at hprechk
                simpa using hprechk
              · intro hsuf
                simp [hsuf] at hsufchk
                simpa using hsufchk
        · -- no context supplied: both implications are vacuous
          rename_i hnoctx
          simp only [Bool.or_eq_true, not_or, Bool.not_eq_true] at hnoctx
          exact ⟨fun hp => absurd hp (by simp [hnoctx.1]),
            fun hsf => absurd hsf (by simp [hnoctx.2])⟩

theorem textMatchScore_exact (approx : ApproxSearch) (text str : List Char)
    (hs : str ≠ []) (ht : text ≠ []) {i : Nat}
    (hfound : jsIndexOfFrom text str 0 = some i) :
    textMatchScore approx text str = 1 := by
  have hs0 : str.length ≠ 0 := by simpa using hs
  have ht0 : text.length ≠ 0 := by simpa using ht
  unfold textMatchScore
  rw [if_neg (by omega)]
  unfold search
  rw [collectExact_eq_cons hs hfound]
  simp only [List.length_cons, gt_iff_lt, Nat.succ_pos, if_pos]
  norm_num

/-- C5 witness: quote `"b"` in text `"aab"` with prefix context `"a"`; the
match is returned and the window checks hold at it. -/
theorem C5_matchQuote_strict_context_witness :
    (strTruthy (some "a".data) = true →
      jsIncludes (jsSlice "aab".data (2 - 64) 2) ((some "a".data).getD []) = true) ∧
    (strTruthy (none : Option (List Char)) = true →
      jsIncludes (jsSlice "aab".data 3 (min "aab".data.length (3 + 64)))
        ((none : Option (List Char)).getD []) = true) := by
  have h : matchQuote (fun _ _ _ => []) "aab".data "b".data
      ⟨some "a".data, none, none⟩ = some ⟨2, 3, 1⟩ := by
    show matchQuote (fun _ _ _ => []) ['a', 'a', 'b'] ['b']
      ⟨some ['a'], none, none⟩ = some ⟨2, 3, 1⟩
    have hc1 : collectExact ['a', 'a', 'b'] ['b'] 0 =
        [⟨2, 3, 0⟩] := by
      rw [collectExact_eq_cons (by decide)
            (by decide : jsIndexOfFrom ['a', 'a', 'b'] ['b'] 0 = some 2),
          collectExact_eq_nil (by decide)
            (by decide : jsIndexOfFrom ['a', 'a', 'b'] ['b'] 3 = none)]
      decide
    have hts : textMatchScore (fun _ _ _ => ([] : List StringMatch))
        ['a'] ['a'] = 1 :=
      textMatchScore_exact _ _ _ (by decide) (by decide)
        (by decide : jsIndexOfFrom ['a'] ['a'] 0 = some 0)
    have hscore : scoreMatch (fun _ _ _ => []) ['a', 'a', 'b'] ['b']
        ⟨some ['a'], none, none⟩ ⟨2, 3, 0⟩ = 1 := by
      unfold scoreMatch
      norm_num [strTruthy, Option.getD_some,
        show jsSlice ['a', 'a', 'b'] 1 2 = ['a'] from by decide, hts]
    have hsearch : search (fun _ _ _ => []) ['a', 'a', 'b'] ['b']
        (min 256 ((['b'].length : ℚ) / 2)) = [⟨2, 3, 0⟩] := by
      unfold search
      rw [hc1]
      simp
    unfold matchQuote
    rw [if_neg (by decide : ¬(['b'].length = 0))]
    simp only [hsearch]
    rw [if_neg (by decide :
      ¬([(⟨2, 3, 0⟩ : StringMatch)].length = 0))]
    simp only [List.map_cons, List.map_nil, sortBy, insertBy, hscore]
    split
    · split
      · rename_i hB
        exact absurd hB (by decide)
      · split
        · rename_i hC
          exact absurd hC (by decide)
        · rfl
    · rfl
  exact C5_matchQuote_strict_context (fun _ _ _ => []) "aab".data "b".data
    ⟨some "a".data, none, none⟩ ⟨2, 3, 1⟩ h

/-! ## C7: empty quote or empty text -/

theorem editDist_nil_left (ys : List Char) : editDist [] ys = ys.length := by
  rw [editDist]

/-- The spec-modelled approximate search finds nothing in empty text for a
non-empty pattern: the only candidate span is empty, at distance
`pat.length`, which exceeds the budget `min 256 (pat.length / 2)`. -/
theorem approxSearchSpec_nil {pat : List Char} (hpat : pat ≠ []) :
    approxSearchSpec [] pat (min 256 ((pat.length : ℚ) / 2)) = [] := by
  have hlen1 : 1 ≤ pat.length := by
    cases pat with
    | nil => exact absurd rfl hpat
    | cons _ _ => simp
  have hcond : ¬ ((editDist (jsSlice [] 0 0) pat : ℚ) ≤
      min 256 ((pat.length : ℚ) / 2)) := by
    rw [show jsSlice [] 0 0 = ([] : List Char) from rfl, editDist_nil_left]
    intro hcontra
    have h2 : (pat.length : ℚ) ≤ (pat.length : ℚ) / 2 :=
      le_trans hcontra (min_le_right _ _)
    have h3 : (1 : ℚ) ≤ (pat.length : ℚ) := by exact_mod_cast hlen1
    linarith
  unfold approxSearchSpec
  rw [show List.range (([] : List Char).length + 1) = [0] from rfl]
  simp only [List.flatMap_cons, List.flatMap_nil, List.filterMap_cons,
    List.filterMap_nil]
  rw [if_pos (Nat.le_refl 0), if_neg hcond]
  rfl

/-- C7: `matchQuote` returns null whenever the quote is empty (for every
text, context and approximate-search function), and returns null on empty
text for every non-empty quote (with the spec-modelled approximate
search). -/
theorem C7_matchQuote_null_on_empty :
    (∀ (approx : ApproxSearch) (text : List Char) (ctx : Context),
        matchQuote approx text [] ctx = none) ∧
    (∀ (quote : List Char) (ctx : Context), quote ≠ [] →
        matchQuote approxSearchSpec [] quote ctx = none) := by
  constructor
  · intro approx text ctx
    simp [matchQuote]
  · intro quote ctx hq
    have hlen : ¬ quote.length = 0 := by simpa using hq
    have hex : collectExact [] quote 0 = [] :=
      collectExact_eq_nil hq (by
        unfold jsIndexOfFrom
        cases quote with
        | nil => exact absurd rfl hq
        | cons c t =>
          simp [firstMatch, List.isPrefixOf])
    have hsearch : search approxSearchSpec [] quote
        (min 256 ((quote.length : ℚ) / 2)) = [] := by
      unfold search
      rw [hex, approxSearchSpec_nil hq]
      simp
    unfold matchQuote
    rw [if_neg hlen]
    simp only [hsearch]
    rw [if_pos (by decide : ([] : List StringMatch).length = 0)]

/-- C7 witness: empty quote on text `"abc"`, and quote `"a"` on empty
text, both yield null. -/
theorem C7_matchQuote_null_on_empty_witness :
    matchQuote approxSearchSpec "abc".data [] {} = none ∧
    matchQuote approxSearchSpec [] "a".data {} = none :=
  ⟨C7_matchQuote_null_on_empty.1 approxSearchSpec "abc".data {},
    C7_matchQuote_null_on_empty.2 "a".data {} (by decide)⟩

/-! ## C6: score normalization bounds -/

theorem approxSearchSpec_mem {text pat : List Char} {k : ℚ} {m : StringMatch}
    (hm : m ∈ approxSearchSpec text pat k) :
    (m.errors : ℚ) ≤ k ∧ m.start ≤ text.length := by
  unfold approxSearchSpec at hm
  have hm2 := mem_sortBy hm
  simp only [List.mem_flatMap, List.mem_filterMap, List.mem_range] at hm2
  obtain ⟨s, hs, e, he, hfe⟩ := hm2
  split at hfe
  · split at hfe
    · rename_i hd
      simp only [Option.some.injEq] at hfe
      subst hfe
      refine ⟨hd, ?_⟩
      show s ≤ text.length
      omega
    · simp at hfe
  · simp at hfe

theorem search_mem {text pat : List Char} {k : ℚ} {m : StringMatch}
    (hm : m ∈ search approxSearchSpec text pat k) :
    (m.errors = 0 ∧ m.start + pat.length ≤ text.length) ∨
      ((m.errors : ℚ) ≤ k ∧ m.start ≤ text.length) := by
  simp only [search] at hm
  split at hm
  · left
    have hprops := collectExact_mem text pat 0 m hm
    exact ⟨hprops.1, hprops.2.2.1⟩
  · right
    exact approxSearchSpec_mem hm

theorem textMatchScore_bounds (text str : List Char) :
    0 ≤ textMatchScore approxSearchSpec text str ∧
      textMatchScore approxSearchSpec text str ≤ 1 := by
  unfold textMatchScore
  split
  · norm_num
  · rename_i hcond
    have hstr : str.length ≠ 0 := fun hc => hcond (Or.inl hc)
    have hL : (1 : ℚ) ≤ (str.length : ℚ) := by
      have : 1 ≤ str.length := by omega
      exact_mod_cast this
    cases hsr : search approxSearchSpec text str ((str.length : ℚ)) with
    | nil => norm_num
    | cons m rest =>
      show (0 ≤ 1 - (m.errors : ℚ) / (str.length : ℚ)) ∧
        (1 - (m.errors : ℚ) / (str.length : ℚ) ≤ 1)
      have hm : m ∈ search approxSearchSpec text str ((str.length : ℚ)) :=
        hsr ▸ List.mem_cons_self _ _
      rcases search_mem hm with ⟨herr, _⟩ | ⟨herr, _⟩
      · rw [herr]
        norm_num
      · have h0 : (0 : ℚ) ≤ (m.errors : ℚ) := by positivity
        have h1 : (m.errors : ℚ) / (str.length : ℚ) ≤ 1 :=
          (div_le_one (by linarith)).mpr (by linarith)
        have h2 : (0 : ℚ) ≤ (m.errors : ℚ) / (str.length : ℚ) := by positivity
        constructor <;> linarith

theorem weightedScore_le_one {qs ps ss pos : ℚ} (h1 : qs ≤ 1) (h2 : ps ≤ 1)
    (h3 : ss ≤ 1) (h4 : pos ≤ 1) :
    (50 * qs + 20 * ps + 20 * ss + 2 * pos) / (50 + 20 + 20 + 2) ≤ 1 := by
  rw [div_le_one (by norm_num)]
  linarith

theorem weightedScore_nonneg {qs ps ss pos : ℚ} (h1 : 0 ≤ qs) (h2 : 0 ≤ ps)
    (h3 : 0 ≤ ss) (h4 : 0 ≤ pos) :
    0 ≤ (50 * qs + 20 * ps + 20 * ss + 2 * pos) / (50 + 20 + 20 + 2) :=
  div_nonneg (by linarith) (by norm_num)

theorem scoreMatch_bounds (text quote : List Char) (ctx : Context)
    (sm : StringMatch) (hq : quote ≠ [])
    (hsm : sm ∈ search approxSearchSpec text quote
      (min 256 ((quote.length : ℚ) / 2))) :
    scoreMatch approxSearchSpec text quote ctx sm ≤ 1 ∧
      ((∀ q ∈ ctx.hint, 0 ≤ q ∧ q ≤ (text.length : ℚ)) →
        0 ≤ scoreMatch approxSearchSpec text quote ctx sm) := by
  have hL : (1 : ℚ) ≤ (quote.length : ℚ) := by
    have h1 : 1 ≤ quote.length := by
      cases quote with
      | nil => exact absurd rfl hq
      | cons _ _ => simp
    exact_mod_cast h1
  -- bounds for the quote-similarity component
  have hquote : 0 ≤ 1 - (sm.errors : ℚ) / (quote.length : ℚ) ∧
      1 - (sm.errors : ℚ) / (quote.length : ℚ) ≤ 1 := by
    rcases search_mem hsm with ⟨herr, _⟩ | ⟨herr, _⟩
    · rw [herr]
      norm_num
    · have hb : (sm.errors : ℚ) ≤ (quote.length : ℚ) := by
        have h2 := min_le_right (256 : ℚ) ((quote.length : ℚ) / 2)
        linarith
      have h1 : (sm.errors : ℚ) / (quote.length : ℚ) ≤ 1 :=
        (div_le_one (by linarith)).mpr hb
      have h2 : (0 : ℚ) ≤ (sm.errors : ℚ) / (quote.length : ℚ) := by positivity
      constructor <;> linarith
  -- the match starts inside the text
  have hstart : (sm.start : ℚ) ≤ (text.length : ℚ) := by
    rcases search_mem hsm with ⟨_, hb⟩ | ⟨_, hb⟩
    · exact_mod_cast Nat.le_trans (Nat.le_add_right _ _) hb
    · exact_mod_cast hb
  -- bounds for the context-similarity components
  have hpre : (0 : ℚ) ≤ (if strTruthy ctx.pre = true then
        textMatchScore approxSearchSpec
          (jsSlice text (sm.start - (ctx.pre.getD []).length) sm.start)
          (ctx.pre.getD []) else 1) ∧
      (if strTruthy ctx.pre = true then
        textMatchScore approxSearchSpec
          (jsSlice text (sm.start - (ctx.pre.getD []).length) sm.start)
          (ctx.pre.getD []) else 1) ≤ 1 := by
    split
    · exact textMatchScore_bounds _ _
    · norm_num
  have hsuf : (0 : ℚ) ≤ (if strTruthy ctx.suf = true then
        textMatchScore approxSearchSpec
          (jsSlice text sm.endPos (sm.endPos + (ctx.suf.getD []).length))
          (ctx.suf.getD []) else 1) ∧
      (if strTruthy ctx.suf = true then
        textMatchScore approxSearchSpec
          (jsSlice text sm.endPos (sm.endPos + (ctx.suf.getD []).length))
          (ctx.suf.getD []) else 1) ≤ 1 := by
    split
    · exact textMatchScore_bounds _ _
    · norm_num
  cases hh : ctx.hint with
  | none =>
    simp only [scoreMatch, hh]
    constructor
    · exact weightedScore_le_one hquote.2 hpre.2 hsuf.2 le_rfl
    · intro _
      exact weightedScore_nonneg hquote.1 hpre.1 hsuf.1 zero_le_one
  | some q =>
    simp only [scoreMatch, hh]
    have hposle : 1 - |(sm.start : ℚ) - q| / (text.length : ℚ) ≤ 1 := by
      have h0 : (0 : ℚ) ≤ |(sm.start : ℚ) - q| / (text.length : ℚ) := by
        positivity
      linarith
    constructor
    · exact weightedScore_le_one hquote.2 hpre.2 hsuf.2 hposle
    · intro hhint
      obtain ⟨hq0, hqL⟩ := hhint q (by simp)
      have habs : |(sm.start : ℚ) - q| ≤ (text.length : ℚ) := by
        rw [abs_le]
        have h0 : (0 : ℚ) ≤ (sm.start : ℚ) := by positivity
        constructor <;> linarith
      have hposge : 0 ≤ 1 - |(sm.start : ℚ) - q| / (text.length : ℚ) := by
        rcases eq_or_lt_of_le
          (show (0 : ℚ) ≤ (text.length : ℚ) by positivity) with hT | hT
        · have hz : |(sm.start : ℚ) - q| = 0 :=
            le_antisymm (hT ▸ habs) (abs_nonneg _)
          rw [hz]
          norm_num
        · have h1 : |(sm.start : ℚ) - q| / (text.length : ℚ) ≤ 1 :=
            (div_le_one hT).mpr habs
          linarith
      exact weightedScore_nonneg hquote.1 hpre.1 hsuf.1 hposge

/-- C6 (amended): every match returned by `matchQuote` (with the
spec-modelled approximate search) has score at most 1, and the score is
also non-negative — hence in `[0,1]` — whenever the supplied numeric hint,
if any, lies within the text (`0 ≤ hint ≤ len(text)`).  For hints far
outside the text the score falls below 0 (see the counterexample). -/
theorem C6_matchQuote_score_bounds (text quote : List Char) (ctx : Context)
    (m : Match) (h : matchQuote approxSearchSpec text quote ctx = some m) :
    m.score ≤ 1 ∧
      ((∀ q ∈ ctx.hint, 0 ≤ q ∧ q ≤ (text.length : ℚ)) → 0 ≤ m.score) := by
  simp only [matchQuote] at h
  split at h
  · simp at h
  · rename_i hqlen
    have hq : quote ≠ [] := by
      cases quote with
      | nil => simp at hqlen
      | cons _ _ => simp
    split at h
    · simp at h
    · split at h
      · simp at h
      · rename_i best tail hsorted
        have hbm : best = m := by
          split at h
          · split at h
            · simp at h
            · split at h
              · simp at h
              · simpa using h
          · simpa using h
        subst hbm
        have hmem : best ∈ (search approxSearchSpec text quote
            (min 256 ((quote.length : ℚ) / 2))).map (fun sm =>
              ({ start := sm.start, endPos := sm.endPos,
                 score := scoreMatch approxSearchSpec text quote ctx sm } :
                Match)) :=
          mem_sortBy (hsorted ▸ List.mem_cons_self _ _)
        simp only [List.mem_map] at hmem
        obtain ⟨sm, hsm, hfm⟩ := hmem
        have hbounds := scoreMatch_bounds text quote ctx sm hq hsm
        rw [← hfm]
        exact hbounds

/-- C6 counterexample: with the hint 1000 on the two-character text
`"ab"`, the returned score is `-227/23 < 0`, outside `[0,1]`. -/
theorem C6_matchQuote_score_counterexample :
    matchQuote approxSearchSpec "ab".data "ab".data ⟨none, none, some 1000⟩ =
      some ⟨0, 2, -227 / 23⟩ ∧ ((-227 / 23 : ℚ) < 0) := by
  constructor
  · show matchQuote approxSearchSpec ['a', 'b'] ['a', 'b']
      ⟨none, none, some 1000⟩ = some ⟨0, 2, -227 / 23⟩
    have hc1 : collectExact ['a', 'b'] ['a', 'b'] 0 = [⟨0, 2, 0⟩] := by
      rw [collectExact_eq_cons (by decide)
            (by decide : jsIndexOfFrom ['a', 'b'] ['a', 'b'] 0 = some 0),
          collectExact_eq_nil (by decide)
            (by decide : jsIndexOfFrom ['a', 'b'] ['a', 'b'] 1 = none)]
      decide
    have hscore : scoreMatch approxSearchSpec ['a', 'b'] ['a', 'b']
        ⟨none, none, some 1000⟩ ⟨0, 2, 0⟩ = -227 / 23 := by
      unfold scoreMatch
      simp only [strTruthy]
      norm_num [abs_of_nonpos]
    have hsearch : search approxSearchSpec ['a', 'b'] ['a', 'b']
        (min 256 ((['a', 'b'].length : ℚ) / 2)) = [⟨0, 2, 0⟩] := by
      unfold search
      rw [hc1]
      simp
    unfold matchQuote
    rw [if_neg (by decide : ¬(['a', 'b'].length = 0))]
    simp only [hsearch]
    rw [if_neg (by decide : ¬([(⟨0, 2, 0⟩ : StringMatch)].length = 0))]
    simp only [List.map_cons, List.map_nil, sortBy, insertBy, hscore]
    rw [if_neg (by decide)]
  · norm_num

/-- C6 witness: with hint 1 inside the text `"ab"`, the returned score is
within `[0,1]`. -/
theorem C6_matchQuote_score_bounds_witness :
    ∃ m : Match,
      matchQuote approxSearchSpec "ab".data "ab".data
        ⟨none, none, some 1⟩ = some m ∧ m.score ≤ 1 ∧ 0 ≤ m.score := by
  have h : matchQuote approxSearchSpec "ab".data "ab".data
      ⟨none, none, some 1⟩ = some ⟨0, 2, 91 / 92⟩ := by
    show matchQuote approxSearchSpec ['a', 'b'] ['a', 'b']
      ⟨none, none, some 1⟩ = some ⟨0, 2, 91 / 92⟩
    have hc1 : collectExact ['a', 'b'] ['a', 'b'] 0 = [⟨0, 2, 0⟩] := by
      rw [collectExact_eq_cons (by decide)
            (by decide : jsIndexOfFrom ['a', 'b'] ['a', 'b'] 0 = some 0),
          collectExact_eq_nil (by decide)
            (by decide : jsIndexOfFrom ['a', 'b'] ['a', 'b'] 1 = none)]
      decide
    have hscore : scoreMatch approxSearchSpec ['a', 'b'] ['a', 'b']
        ⟨none, none, some 1⟩ ⟨0, 2, 0⟩ = 91 / 92 := by
      unfold scoreMatch
      simp only [strTruthy]
      norm_num [abs_of_nonpos]
    have hsearch : search approxSearchSpec ['a', 'b'] ['a', 'b']
        (min 256 ((['a', 'b'].length : ℚ) / 2)) = [⟨0, 2, 0⟩] := by
      unfold search
      rw [hc1]
      simp
    unfold matchQuote
    rw [if_neg (by decide : ¬(['a', 'b'].length = 0))]
    simp only [hsearch]
    rw [if_neg (by decide : ¬([(⟨0, 2, 0⟩ : StringMatch)].length = 0))]
    simp only [List.map_cons, List.map_nil, sortBy, insertBy, hscore]
    rw [if_neg (by decide)]
  refine ⟨⟨0, 2, 91 / 92⟩, h, ?_⟩
  have hb := C6_matchQuote_score_bounds "ab".data "ab".data
    ⟨none, none, some 1⟩ ⟨0, 2, 91 / 92⟩ h
  refine ⟨hb.1, hb.2 ?_⟩
  intro q hq
  simp only [Option.mem_def, Option.some.injEq] at hq
  subst hq
  constructor
  · norm_num
  · show (1 : ℚ) ≤ ("ab".data.length : ℚ)
    norm_num

/-! ## C1: quote assertion on structural results -/

/-- C1: if the Location has a range (structural) selector whose resolution
succeeds with text different from the present quote selector's non-empty
`exact`, then `anchor` behaves exactly as if the range selector were
absent (the structural result is rejected and resolution falls through to
the offset and quote strategies); moreover if the offset strategy is also
absent, failing, or resolves to mismatching text (the same assertion), the
result is exactly the quote strategy's outcome, which is never
quote-asserted. -/
theorem C1_anchor_rejects_mismatched_structural
    (sels : List SelectorWithType) (rs : RangeSelData)
    (pSel : Option PosSelData) (q : QuoteSelData) (hint : Option Int)
    (e : String) (r : DomRange)
    (hcol : collectSelectors sels none = ⟨pSel, some q, some rs, hint⟩)
    (hexact : q.exact = some e) (he : e ≠ "") (hr : r.text ≠ e)
    (o2 o3 : Except String DomRange) :
    (anchor sels (.ok r) o2 o3 =
      anchorCore none pSel (some q) (.ok r) o2 o3) ∧
    ((pSel = none ∨ (∃ e2, o2 = .error e2) ∨
        (∃ r2, o2 = .ok r2 ∧ r2.text ≠ e)) →
      anchor sels (.ok r) o2 o3 =
        o3.map (fun range => ("text-quote", range))) := by
  have hq : quoteExactTruthy (some q) = some e := by
    simp [quoteExactTruthy, hexact, he]
  have hassert : maybeAssertQuote (some q) r = .error "quote mismatch" := by
    simp [maybeAssertQuote, hq, hr]
  unfold anchor
  rw [hcol]
  constructor
  · -- the chain with the range stage equals the chain without it
    cases pSel with
    | none =>
      cases o3 with
      | ok r3 => simp [anchorCore, exceptCatch, Except.bind, Except.map, hassert]
      | error e3 => simp [anchorCore, exceptCatch, Except.bind, Except.map, hassert]
    | some p =>
      simp [anchorCore, exceptCatch, Except.bind, Except.map, hassert]
  · intro hoff
    rcases hoff with rfl | ⟨e2, rfl⟩ | ⟨r2, rfl, hr2⟩
    · simp [anchorCore, exceptCatch, Except.bind, Except.map, hassert]
    · cases pSel with
      | none => simp [anchorCore, exceptCatch, Except.bind, Except.map, hassert]
      | some p => simp [anchorCore, exceptCatch, Except.bind, Except.map, hassert]
    · cases pSel with
      | none => simp [anchorCore, exceptCatch, Except.bind, Except.map, hassert]
      | some p =>
        have hassert2 : maybeAssertQuote (some q) r2 =
            .error "quote mismatch" := by
          simp [maybeAssertQuote, hq, hr2]
        simp [anchorCore, exceptCatch, Except.bind, Except.map, hassert, hassert2]

/-- C1 witness: a Location with a range selector resolving to `"y"` and a
quote selector with `exact = "x"`; the mismatched structural result is
rejected and the quote strategy's (unasserted) result is returned. -/
theorem C1_anchor_rejects_mismatched_structural_witness :
    anchor [SelectorWithType.rangeSelector ⟨"", 0, "", 0⟩,
        SelectorWithType.textQuoteSelector ⟨some "x", none, none⟩]
      (.ok ⟨"y"⟩) (.error "position failed") (.ok ⟨"z"⟩) =
      (Except.ok (⟨"z"⟩ : DomRange)).map (fun range => ("text-quote", range)) :=
  (C1_anchor_rejects_mismatched_structural
    [SelectorWithType.rangeSelector ⟨"", 0, "", 0⟩,
      SelectorWithType.textQuoteSelector ⟨some "x", none, none⟩]
    ⟨"", 0, "", 0⟩ none ⟨some "x", none, none⟩ none "x" ⟨"y"⟩
    rfl rfl (by decide) (by decide)
    (.error "position failed") (.ok ⟨"z"⟩)).2 (Or.inl rfl)

/-! ## C2: the error surfaced when everything fails -/

/-- C2 counterexample: a Location with only a (failing) quote selector; the
caller receives the quote strategy's own error "Quote not found", not
"unable to anchor". -/
theorem C2_anchor_error_counterexample :
    anchor [SelectorWithType.textQuoteSelector ⟨some "x", none, none⟩]
        (.error "range failed") (.error "position failed")
        (.error "Quote not found") =
      .error "Quote not found" ∧
    ("Quote not found" : String) ≠ "unable to anchor" :=
  ⟨rfl, by decide⟩

/-- C2 (amended): when no recognized selector kind is present, `anchor`
surfaces "unable to anchor" whatever the strategy outcomes; when selector
kinds are present and every attempted strategy fails (with the quote
assertion folded in), the surfaced error is that of the LAST attempted
strategy — quote if present, else position, else range — not
"unable to anchor".  Absent kinds are skipped: they contribute no catch
clause to the chain. -/
theorem C2_anchor_error_surface (sels : List SelectorWithType)
    (rSel : Option RangeSelData) (pSel : Option PosSelData)
    (qSel : Option QuoteSelData) (hint : Option Int)
    (hcol : collectSelectors sels none = ⟨pSel, qSel, rSel, hint⟩) :
    (∀ o1 o2 o3, rSel = none → pSel = none → qSel = none →
        anchor sels o1 o2 o3 = .error "unable to anchor") ∧
    (∀ (o1 o2 o3 : Except String DomRange) (e1 e2 e3 : String),
        o1.bind (maybeAssertQuote qSel) = .error e1 →
        o2.bind (maybeAssertQuote qSel) = .error e2 →
        o3 = .error e3 →
        anchor sels o1 o2 o3 = .error
          (if qSel.isSome then e3
           else if pSel.isSome then e2
           else if rSel.isSome then e1
           else "unable to anchor")) := by
  constructor
  · intro o1 o2 o3 h1 h2 h3
    subst h1 h2 h3
    unfold anchor
    rw [hcol]
    simp [anchorCore]
  · intro o1 o2 o3 e1 e2 e3 h1 h2 h3
    subst h3
    unfold anchor
    rw [hcol]
    cases rSel with
    | none =>
      cases pSel with
      | none =>
        cases qSel with
        | none => simp [anchorCore]
        | some q => simp [anchorCore, exceptCatch, Except.map]
      | some p =>
        cases qSel with
        | none => simp [anchorCore, exceptCatch, Except.map, h2]
        | some q => simp [anchorCore, exceptCatch, Except.map, h2]
    | some rsd =>
      cases pSel with
      | none =>
        cases qSel with
        | none => simp [anchorCore, exceptCatch, Except.map, h1]
        | some q => simp [anchorCore, exceptCatch, Except.map, h1]
      | some p =>
        cases qSel with
        | none => simp [anchorCore, exceptCatch, Except.map, h1, h2]
        | some q => simp [anchorCore, exceptCatch, Except.map, h1, h2]

/-- C2 witness: with all three selector kinds present and all outcomes
failing, the quote strategy's error is surfaced; with no selectors, the
"unable to anchor" error is surfaced. -/
theorem C2_anchor_error_surface_witness :
    anchor [SelectorWithType.rangeSelector ⟨"", 0, "", 0⟩,
        SelectorWithType.textPositionSelector ⟨some 0, some 1⟩,
        SelectorWithType.textQuoteSelector ⟨some "x", none, none⟩]
      (.error "r") (.error "p") (.error "q") =
      .error (if (some (⟨some "x", none, none⟩ : QuoteSelData)).isSome
        then "q"
        else if (some (⟨some 0, some 1⟩ : PosSelData)).isSome then "p"
        else if (some (⟨"", 0, "", 0⟩ : RangeSelData)).isSome then "r"
        else "unable to anchor") ∧
    anchor [] (.error "r") (.error "p") (.error "q") =
      .error "unable to anchor" := by
  constructor
  · exact (C2_anchor_error_surface
      [SelectorWithType.rangeSelector ⟨"", 0, "", 0⟩,
        SelectorWithType.textPositionSelector ⟨some 0, some 1⟩,
        SelectorWithType.textQuoteSelector ⟨some "x", none, none⟩]
      (some ⟨"", 0, "", 0⟩)
      (some ⟨some 0, some 1⟩) (some ⟨some "x", none, none⟩) (some 0)
      rfl).2 (.error "r") (.error "p") (.error "q") "r" "p" "q"
      rfl rfl rfl
  · exact (C2_anchor_error_surface [] none none none none rfl).1
      (.error "r") (.error "p") (.error "q") rfl rfl rfl

/-- C8 counterexample: constructing a `TextPositionAnchor` from a selector
with negative `start`/`end` succeeds and stores the negative offsets
verbatim — there is no construction-time InvalidOffset failure on this
path (the embedded constructor is total). -/
theorem C8_negative_offset_counterexample :
    TextPositionAnchor.fromSelector (DomNode.element "div".data []) (-1) (-5)
        = ⟨DomNode.element "div".data [], -1, -5⟩ ∧
    (TextPositionAnchor.fromSelector (DomNode.element "div".data [])
        (-1) (-5)).start < 0 :=
  ⟨rfl, by decide⟩

/-- C8 (amended): `TextPositionAnchor` construction (constructor and
`fromSelector`) performs no offset validation — any offsets, negative ones
included, are stored verbatim and construction never fails; the
construction-time negative-offset failure ('Offset is invalid') exists
only in the text-range module's `TextPosition` class (absent from src/,
modelled from the spec), which fails exactly on negative offsets. -/
theorem C8_offset_construction (root : DomNode) (s e : Int) :
    (TextPositionAnchor.fromSelector root s e).start = s ∧
    (TextPositionAnchor.fromSelector root s e).endPos = e ∧
    (s < 0 → textPositionCtor root s = .error "Offset is invalid") ∧
    (0 ≤ s → textPositionCtor root s = .ok (root, s)) := by
  refine ⟨rfl, rfl, ?_, ?_⟩
  · intro h
    simp [textPositionCtor, h]
  · intro h
    simp [textPositionCtor, not_lt.mpr h]

/-- C8 witness: at offsets `-1`/`-5`, anchor construction succeeds while
the spec-modelled `TextPosition` construction fails. -/
theorem C8_offset_construction_witness :
    (TextPositionAnchor.fromSelector (DomNode.element "div".data [])
        (-1) (-5)).start = -1 ∧
    textPositionCtor (DomNode.element "div".data []) (-1) =
      .error "Offset is invalid" :=
  ⟨(C8_offset_construction (DomNode.element "div".data []) (-1) (-5)).1,
    (C8_offset_construction (DomNode.element "div".data []) (-1) (-5)).2.2.1
      (by decide)⟩

/-- C9 counterexample: selecting `"a  b"` (two spaces) inside a container
whose text is exactly `"a  b"`: `TextQuoteAnchor.fromRange` stores the
whitespace-normalized `"a b"` as `exact`, not the raw selected text. -/
theorem C9_fromRange_normalizes_counterexample :
    TextQuoteAnchor.fromRange "a  b".data "a  b".data =
      .ok ⟨"a b".data, [], []⟩ ∧
    "a b".data ≠ "a  b".data := by
  constructor
  · rfl
  · decide

/-- C9 (amended): the annotation builder's `createAnnotation` takes
`exact` verbatim from the raw selection text with no whitespace
normalization; `TextQuoteAnchor.fromRange`, however, normalizes the
selection (whitespace runs collapsed, ends trimmed) and stores the
normalized text as `exact` whenever that normalized text occurs in the
normalized container text, falling back to the raw selection only when it
does not. -/
theorem C9_exact_raw_vs_normalized
    (rangeText startText endText : List Char) (so eo : Nat)
    (containerRawText : List Char) :
    (createAnnotationQuoteSelector rangeText startText so endText eo).exact
        = rangeText ∧
    (∀ i, firstMatch (normalizeText containerRawText)
        (normalizeText rangeText) = some i →
      ∃ q, TextQuoteAnchor.fromRange containerRawText rangeText = .ok q ∧
        q.exact = normalizeText rangeText) ∧
    (firstMatch (normalizeText containerRawText)
        (normalizeText rangeText) = none →
      ∀ j, firstMatch containerRawText rangeText = some j →
      ∃ q, TextQuoteAnchor.fromRange containerRawText rangeText = .ok q ∧
        q.exact = rangeText) := by
  refine ⟨rfl, ?_, ?_⟩
  · intro i hi
    simp only [TextQuoteAnchor.fromRange, hi]
    exact ⟨_, rfl, rfl⟩
  · intro hn j hj
    simp only [TextQuoteAnchor.fromRange, hn, hj]
    exact ⟨_, rfl, rfl⟩

/-- C9 witness: the builder preserves `"a  b"` raw; `fromRange` on the
same selection stores the normalized `"a b"`. -/
theorem C9_exact_raw_vs_normalized_witness :
    (createAnnotationQuoteSelector "a  b".data "xx a b yy".data 3
        "xx a b yy".data 7).exact = "a  b".data ∧
    (∃ q, TextQuoteAnchor.fromRange "a  b".data "a  b".data = .ok q ∧
      q.exact = normalizeText "a  b".data) :=
  ⟨(C9_exact_raw_vs_normalized "a  b".data "xx a b yy".data
      "xx a b yy".data 3 7 "a  b".data).1,
    (C9_exact_raw_vs_normalized "a  b".data "xx a b yy".data
      "xx a b yy".data 3 7 "a  b".data).2.1 0 (by decide)⟩

theorem streamLen_cons (n : List Char) (rest : List (List Char)) :
    streamLen (n :: rest) = n.length + streamLen rest := by
  simp [streamLen]

theorem cumLen_zero (nodes : List (List Char)) : cumLen nodes 0 = 0 := by
  simp [cumLen]

theorem cumLen_cons_succ (n : List Char) (rest : List (List Char)) (j : Nat) :
    cumLen (n :: rest) (j + 1) = n.length + cumLen rest j := by
  simp [cumLen]

theorem isAscending_cons {o : Nat} {os : List Nat}
    (h : isAscending (o :: os) = true) :
    isAscending os = true ∧ ∀ o2 ∈ os, o ≤ o2 := by
  induction os generalizing o with
  | nil => simp [isAscending]
  | cons b t ih =>
    rw [isAscending] at h
    simp only [Bool.and_eq_true] at h
    obtain ⟨hob, hrest⟩ := h
    have hb := ih hrest
    refine ⟨hrest, ?_⟩
    intro o2 ho2
    rcases List.mem_cons.mp ho2 with rfl | ho2'
    · exact of_decide_eq_true hob
    · exact Nat.le_trans (of_decide_eq_true hob) (hb.2 o2 ho2')

theorem boundaryLoop_none (L : Nat) (offsets : List Nat) :
    boundaryLoop L none offsets = ([], offsets) := by
  cases offsets <;> rfl

theorem boundaryLoop_all_eq (L i len : Nat) (offsets : List Nat)
    (h : ∀ o ∈ offsets, o = L) :
    boundaryLoop L (some (i, len)) offsets =
      (offsets.map (fun _ => (⟨i, len⟩ : ResolvedTextPosition)), []) := by
  induction offsets with
  | nil => rfl
  | cons o os ih =>
    rw [boundaryLoop]
    have ho : o = L := h o (by simp)
    rw [if_pos ho.symm]
    rw [ih (fun o2 ho2 => h o2 (by simp [ho2]))]
    simp

theorem boundaryLoop_rem_ne (L i len : Nat) (offsets : List Nat)
    (h : ∃ o ∈ offsets, o ≠ L) :
    (boundaryLoop L (some (i, len)) offsets).2 ≠ [] := by
  induction offsets with
  | nil => simp at h
  | cons o os ih =>
    rw [boundaryLoop]
    by_cases ho : L = o
    · rw [if_pos ho]
      obtain ⟨o2, ho2, hne⟩ := h
      rcases List.mem_cons.mp ho2 with rfl | ho2'
      · exact absurd ho.symm hne
      · simpa using ih ⟨o2, ho2', hne⟩
    · rw [if_neg ho]
      simp

theorem resolveLoop_hit {n : List Char} {rest : List (List Char)}
    {idx cum o : Nat} {os : List Nat} {t : Option (Nat × Nat)}
    (hcond : cum + n.length > o) :
    resolveLoop (n :: rest) idx cum (o :: os) t =
      ((⟨idx, o - cum⟩ : ResolvedTextPosition) ::
          (resolveLoop (n :: rest) idx cum os (some (idx, n.length))).1,
        (resolveLoop (n :: rest) idx cum os (some (idx, n.length))).2.1,
        (resolveLoop (n :: rest) idx cum os (some (idx, n.length))).2.2.1,
        (resolveLoop (n :: rest) idx cum os (some (idx, n.length))).2.2.2) := by
  rw [resolveLoop]
  simp only [if_pos hcond]

theorem resolveLoop_miss {n : List Char} {rest : List (List Char)}
    {idx cum o : Nat} {os : List Nat} {t : Option (Nat × Nat)}
    (hcond : ¬ cum + n.length > o) :
    resolveLoop (n :: rest) idx cum (o :: os) t =
      resolveLoop rest (idx + 1) (cum + n.length) (o :: os)
        (some (idx, n.length)) := by
  rw [resolveLoop]
  simp only [if_neg hcond]

theorem resolveLoop_nilOffsets (nodes : List (List Char)) (idx cum : Nat)
    (t : Option (Nat × Nat)) :
    resolveLoop nodes idx cum [] t = ([], [], cum, t) := by
  cases nodes <;> rw [resolveLoop]

theorem resolveLoop_nilNodes (idx cum o : Nat) (os : List Nat)
    (t : Option (Nat × Nat)) :
    resolveLoop [] idx cum (o :: os) t = ([], o :: os, cum, t) := by
  rw [resolveLoop]

/-- Invariant of the main loop: under sorted offsets all lying at or after
the current position, the loop resolves exactly the offsets below
`cum + streamLen nodes` (to the leaf containing each), leaves the rest,
and — when offsets remain — exits with the total length accumulated and
`textNode` pointing at the last leaf. -/
theorem resolveLoop_spec (nodes : List (List Char)) (idx cum : Nat)
    (offsets : List Nat) (t : Option (Nat × Nat)) :
    isAscending offsets = true →
    (∀ o ∈ offsets, cum ≤ o) →
    ((resolveLoop nodes idx cum offsets t).2.1 =
        offsets.dropWhile (fun o => decide (o < cum + streamLen nodes))) ∧
      ((resolveLoop nodes idx cum offsets t).2.1 ≠ [] →
        (resolveLoop nodes idx cum offsets t).2.2.1 = cum + streamLen nodes ∧
          (resolveLoop nodes idx cum offsets t).2.2.2 =
            (match nodes.getLast? with
             | some n => some (idx + (nodes.length - 1), n.length)
             | none => t)) ∧
      ((resolveLoop nodes idx cum offsets t).1.length =
        (offsets.takeWhile
          (fun o => decide (o < cum + streamLen nodes))).length) ∧
      (∀ (k o : Nat),
        (offsets.takeWhile (fun o => decide (o < cum + streamLen nodes)))[k]?
            = some o →
        ∃ r, (resolveLoop nodes idx cum offsets t).1[k]? = some r ∧
          idx ≤ r.node ∧ r.node < idx + nodes.length ∧
          cum + cumLen nodes (r.node - idx) ≤ o ∧
          o < cum + cumLen nodes (r.node - idx) +
            (nodes.getD (r.node - idx) []).length ∧
          r.offset = o - (cum + cumLen nodes (r.node - idx))) := by
  induction nodes, idx, cum, offsets, t using resolveLoop.induct with
  | case3 nodes idx cum t =>
    intro _ _
    rw [resolveLoop_nilOffsets]
    refine ⟨by simp, ?_, by simp, ?_⟩
    · intro hrem
      simp at hrem
    · intro k o hk
      simp at hk
  | case4 idx cum t o os =>
    intro _ hlb
    rw [resolveLoop_nilNodes]
    have hocum : cum ≤ o := hlb o (by simp)
    have hpred : decide (o < cum + streamLen ([] : List (List Char)))
        = false := by
      simp [streamLen]
      omega
    refine ⟨?_, ?_, ?_, ?_⟩
    · simp [List.dropWhile_cons, hpred]
    · intro _
      simp [streamLen]
    · simp [List.takeWhile_cons, hpred]
    · intro k o2 hk
      simp [List.takeWhile_cons, hpred] at hk
  | case1 idx cum t o os n rest hcond ih =>
    intro hasc hlb
    obtain ⟨hasc2, hmono⟩ := isAscending_cons hasc
    have hlb2 : ∀ o2 ∈ os, cum ≤ o2 := fun o2 h2 => hlb o2 (by simp [h2])
    obtain ⟨iha, ihb, ihc, ihd⟩ := ih hasc2 hlb2
    rw [resolveLoop_hit hcond]
    have hoT : decide (o < cum + streamLen (n :: rest)) = true := by
      rw [streamLen_cons]
      simp
      omega
    refine ⟨?_, ?_, ?_, ?_⟩
    · simpa [List.dropWhile_cons, hoT] using iha
    · intro hrem
      simp only at hrem
      exact ihb hrem
    · simp [List.takeWhile_cons, hoT, ihc]
    · intro k o2 hk
      rw [List.takeWhile_cons, if_pos hoT] at hk
      cases k with
      | zero =>
        simp only [List.getElem?_cons_zero, Option.some.injEq] at hk
        subst hk
        refine ⟨⟨idx, o - cum⟩, by simp, by simp, by simp, ?_, ?_, ?_⟩
        · simp only [Nat.sub_self, cumLen_zero, Nat.add_zero]
          exact hlb o (by simp)
        · simp only [Nat.sub_self, cumLen_zero, Nat.add_zero,
            List.getD_cons_zero]
          omega
        · simp [Nat.sub_self, cumLen_zero]
      | succ k2 =>
        simp only [List.getElem?_cons_succ] at hk
        obtain ⟨r, hr, hprops⟩ := ihd k2 o2 hk
        exact ⟨r, by simpa using hr, hprops⟩
  | case2 idx cum t o os n rest hcond ih =>
    intro hasc hlb
    obtain ⟨hasc2, hmono⟩ := isAscending_cons hasc
    have hlb2 : ∀ o2 ∈ o :: os, cum + n.length ≤ o2 := by
      intro o2 h2
      rcases List.mem_cons.mp h2 with rfl | h2'
      · omega
      · have := hmono o2 h2'
        omega
    obtain ⟨iha, ihb, ihc, ihd⟩ := ih hasc hlb2
    rw [resolveLoop_miss hcond]
    have hT : cum + n.length + streamLen rest =
        cum + streamLen (n :: rest) := by
      rw [streamLen_cons]
      omega
    refine ⟨?_, ?_, ?_, ?_⟩
    · rw [iha, hT]
    · intro hrem
      obtain ⟨hcum, ht⟩ := ihb hrem
      constructor
      · rw [hcum, hT]
      · rw [ht]
        cases hrest : rest with
        | nil => simp
        | cons m ms =>
          have h1 : (n :: m :: ms).getLast? = (m :: ms).getLast? := by
            simp [List.getLast?_cons_cons]
          rw [h1]
          cases hlast : (m :: ms).getLast? with
          | none => simp at hlast
          | some q =>
            simp only [Option.some.injEq, Prod.mk.injEq, List.length_cons]
            refine ⟨by omega, trivial⟩
    · rw [ihc, hT]
    · intro k o2 hk
      rw [← hT] at hk
      obtain ⟨r, hr, hi1, hi2, hi3, hi4, hi5⟩ := ihd k o2 hk
      refine ⟨r, hr, by omega, by simp only [List.length_cons]; omega,
        ?_, ?_, ?_⟩
      · have hsub : r.node - idx = (r.node - (idx + 1)) + 1 := by omega
        rw [hsub, cumLen_cons_succ]
        omega
      · have hsub : r.node - idx = (r.node - (idx + 1)) + 1 := by omega
        rw [hsub, cumLen_cons_succ]
        simp only [List.getD_cons_succ]
        omega
      · have hsub : r.node - idx = (r.node - (idx + 1)) + 1 := by omega
        rw [hsub, cumLen_cons_succ]
        omega

theorem dropWhile_all_eq {offsets : List Nat} {T : Nat}
    (hasc : isAscending offsets = true) (hle : ∀ o ∈ offsets, o ≤ T) :
    ∀ o ∈ offsets.dropWhile (fun o => decide (o < T)), o = T := by
  induction offsets with
  | nil => simp
  | cons a os ih =>
    obtain ⟨hasc2, hmono⟩ := isAscending_cons hasc
    intro o ho
    rw [List.dropWhile_cons] at ho
    split at ho
    · exact ih hasc2 (fun o2 h2 => hle o2 (by simp [h2])) o ho
    · rename_i hfalse
      simp only [decide_eq_true_eq, Nat.not_lt] at hfalse
      have ha : a = T := le_antisymm (hle a (by simp)) hfalse
      rcases List.mem_cons.mp ho with rfl | ho2
      · exact ha
      · have h1 := hmono o ho2
        have h2 := hle o (by simp [ho2])
        omega

/-- C3: on an element with at least one text leaf and an ascending offset
list, `resolveOffsets` resolves every offset below the stream length `L`
to the leaf containing it (with the correct local offset) and every offset
equal to `L` to the end of the last leaf, returning one result per offset;
and it raises `RangeError('Offset exceeds text length')` as soon as any
offset exceeds `L` — the error is never silently dropped in favour of the
partial results. -/
theorem C3_resolveOffsets_spec (element : DomNode) (offsets : List Nat)
    (hleaf : textLeaves element ≠ [])
    (hasc : isAscending offsets = true) :
    ((∀ o ∈ offsets, o ≤ streamLen (textLeaves element)) →
      ∃ rs, resolveOffsets element offsets = .ok rs ∧
        rs.length = offsets.length ∧
        ∀ (k o : Nat), offsets[k]? = some o →
          ∃ r, rs[k]? = some r ∧
            (o < streamLen (textLeaves element) →
              containsAt (textLeaves element) o r) ∧
            (o = streamLen (textLeaves element) →
              r = ⟨(textLeaves element).length - 1,
                ((textLeaves element).getLast?.getD []).length⟩)) ∧
    ((∃ o ∈ offsets, streamLen (textLeaves element) < o) →
      resolveOffsets element offsets = .error "Offset exceeds text length") := by
  obtain ⟨la, lb, lc, ld⟩ := resolveLoop_spec (textLeaves element) 0 0 offsets
    none hasc (fun o _ => Nat.zero_le o)
  simp only [Nat.zero_add] at la lb lc ld
  have hsplit := List.takeWhile_append_dropWhile
    (fun o => decide (o < streamLen (textLeaves element))) offsets
  constructor
  · intro hle
    by_cases hrem :
        (resolveLoop (textLeaves element) 0 0 offsets none).2.1 = []
    · -- everything was consumed in the main loop
      have hdw : offsets.dropWhile
          (fun o => decide (o < streamLen (textLeaves element))) = [] :=
        la ▸ hrem
      have htw : offsets.takeWhile
          (fun o => decide (o < streamLen (textLeaves element))) = offsets := by
        rw [hdw, List.append_nil] at hsplit
        exact hsplit
      refine ⟨(resolveLoop (textLeaves element) 0 0 offsets none).1, ?_, ?_, ?_⟩
      · simp only [resolveOffsets]
        rw [hrem]
        rw [show boundaryLoop
            (resolveLoop (textLeaves element) 0 0 offsets none).2.2.1
            (resolveLoop (textLeaves element) 0 0 offsets none).2.2.2 [] =
            ([], []) from rfl]
        simp
      · rw [lc, htw]
      · intro k o hk
        rw [← htw] at hk
        obtain ⟨r, hr, h1, h2, h3, h4, h5⟩ := ld k o hk
        have hoT : o < streamLen (textLeaves element) := by
          have hmem := List.getElem?_mem hk
          have := List.mem_takeWhile_imp hmem
          simpa using this
        refine ⟨r, hr, ?_, ?_⟩
        · intro _
          exact ⟨by omega, by simpa using h3, by simpa using h4,
            by simpa using h5⟩
        · intro h6
          omega
    · -- offsets equal to the stream length remain for the boundary loop
      obtain ⟨hcum, ht⟩ := lb hrem
      obtain ⟨last, hlast⟩ := Option.isSome_iff_exists.mp
        (List.getLast?_isSome.mpr hleaf)
      rw [hlast] at ht
      have ht2 : (resolveLoop (textLeaves element) 0 0 offsets none).2.2.2 =
          some ((textLeaves element).length - 1, last.length) := by
        rw [ht]
      have hallT : ∀ o ∈
          (resolveLoop (textLeaves element) 0 0 offsets none).2.1,
          o = streamLen (textLeaves element) := by
        rw [la]
        exact dropWhile_all_eq hasc hle
      have hb : boundaryLoop
          (resolveLoop (textLeaves element) 0 0 offsets none).2.2.1
          (resolveLoop (textLeaves element) 0 0 offsets none).2.2.2
          (resolveLoop (textLeaves element) 0 0 offsets none).2.1 =
          ((resolveLoop (textLeaves element) 0 0 offsets none).2.1.map
            (fun _ => (⟨(textLeaves element).length - 1,
              last.length⟩ : ResolvedTextPosition)), []) := by
        rw [ht2, hcum]
        exact boundaryLoop_all_eq _ _ _ _ hallT
      refine ⟨(resolveLoop (textLeaves element) 0 0 offsets none).1 ++
          (resolveLoop (textLeaves element) 0 0 offsets none).2.1.map
            (fun _ => (⟨(textLeaves element).length - 1,
              last.length⟩ : ResolvedTextPosition)), ?_, ?_, ?_⟩
      · simp only [resolveOffsets]
        rw [hb]
        simp
      · rw [List.length_append, List.length_map, lc, la]
        rw [← List.length_append, hsplit]
      · intro k o hk
        by_cases hk2 : k < (offsets.takeWhile
            (fun o => decide (o < streamLen (textLeaves element)))).length
        · have hktw : (offsets.takeWhile
              (fun o => decide (o < streamLen (textLeaves element))))[k]? =
              some o := by
            rw [← hsplit] at hk
            rw [← hk]
            exact (List.getElem?_append_left hk2).symm
          obtain ⟨r, hr, h1, h2, h3, h4, h5⟩ := ld k o hktw
          have hoT : o < streamLen (textLeaves element) := by
            have hmem := List.getElem?_mem hktw
            have := List.mem_takeWhile_imp hmem
            simpa using this
          refine ⟨r, ?_, ?_, ?_⟩
          · rw [List.getElem?_append_left (by omega : k <
              (resolveLoop (textLeaves element) 0 0 offsets none).1.length)]
            exact hr
          · intro _
            exact ⟨by omega, by simpa using h3, by simpa using h4,
              by simpa using h5⟩
          · intro h6
            omega
        · have hklen : k < offsets.length := by
            obtain ⟨hlt, _⟩ := List.getElem?_eq_some.mp hk
            exact hlt
          have hrem2 : (offsets.dropWhile
              (fun o => decide (o < streamLen (textLeaves element))))[
                k - (offsets.takeWhile (fun o =>
                  decide (o < streamLen (textLeaves element)))).length]? =
              some o := by
            rw [← hsplit] at hk
            rw [← hk]
            exact (List.getElem?_append_right (by omega)).symm
          have hoT : o = streamLen (textLeaves element) := by
            have hmem := List.getElem?_mem hrem2
            exact dropWhile_all_eq hasc hle o hmem
          refine ⟨⟨(textLeaves element).length - 1, last.length⟩,
            ?_, ?_, ?_⟩
          · rw [List.getElem?_append_right (by rw [lc]; omega)]
            rw [List.getElem?_map, lc, la, hrem2]
            rfl
          · intro h6
            omega
          · intro _
            rw [hlast]
            rfl
  · intro hex
    obtain ⟨o, ho, hoT⟩ := hex
    have homem : o ∈ (resolveLoop (textLeaves element) 0 0 offsets none).2.1 := by
      rw [la]
      rw [← hsplit] at ho
      rcases List.mem_append.mp ho with htw2 | hdw2
      · have := List.mem_takeWhile_imp htw2
        simp only [decide_eq_true_eq] at this
        omega
      · exact hdw2
    have hremne : (resolveLoop (textLeaves element) 0 0 offsets none).2.1
        ≠ [] := by
      intro h
      rw [h] at homem
      simp at homem
    obtain ⟨hcum, ht⟩ := lb hremne
    obtain ⟨last, hlast⟩ := Option.isSome_iff_exists.mp
      (List.getLast?_isSome.mpr hleaf)
    rw [hlast] at ht
    have ht2 : (resolveLoop (textLeaves element) 0 0 offsets none).2.2.2 =
        some ((textLeaves element).length - 1, last.length) := by
      rw [ht]
    have hb2 := boundaryLoop_rem_ne
      (resolveLoop (textLeaves element) 0 0 offsets none).2.2.1
      ((textLeaves element).length - 1) last.length
      (resolveLoop (textLeaves element) 0 0 offsets none).2.1
      ⟨o, homem, by rw [hcum]; omega⟩
    simp only [resolveOffsets]
    rw [ht2]
    rw [if_pos hb2]

/-- C3 witness: on the stream of length 11, the offsets `[0, 5, 11]` all
resolve (11 to the end of the last leaf) and `[0, 5, 100]` raises the
range error. -/
theorem C3_resolveOffsets_spec_witness :
    resolveOffsets c3Element [0, 5, 100] =
        .error "Offset exceeds text length" ∧
    (∃ rs, resolveOffsets c3Element [0, 5, 11] = .ok rs ∧ rs.length = 3) := by
  constructor
  · exact (C3_resolveOffsets_spec c3Element [0, 5, 100] (by decide)
      (by decide)).2 ⟨100, by decide, by decide⟩
  · obtain ⟨rs, hok, hlen, _⟩ :=
      (C3_resolveOffsets_spec c3Element [0, 5, 11] (by decide)
        (by decide)).1 (by decide)
    exact ⟨rs, hok, hlen⟩

/-- C10 counterexample: for the second child (tag `"text"`, letters only)
of `c10Root`, the built path is `/text[1]` — `getNodePosition` counts
case-SENSITIVELY, so the `"TEXT"` sibling does not increment the index —
but `evaluateSimpleXPath` matches case-INSENSITIVELY and returns the first
child (tag `"TEXT"`), not the element the path was built from: the round
trip fails. -/
theorem C10_xpath_roundtrip_counterexample :
    xpathFromNode c10Root [1] = some "/text[1]".data ∧
    nodeAtPath c10Root [1] = some (DomNode.element "text".data []) ∧
    evaluateSimpleXPath "/text[1]".data c10Root =
      .ok (some (DomNode.element "TEXT".data [])) ∧
    DomNode.element "TEXT".data [] ≠ DomNode.element "text".data [] := by
  refine ⟨rfl, rfl, rfl, ?_⟩
  intro h
  injection h with h1 _
  exact absurd h1 (by decide)

/-! ### C10 amended direction: the round trip succeeds when no two
sibling tags collide case-insensitively.  Character-level facts first. -/

theorem simpleChar_lt_128 {c : Char} (h : simpleChar c = true) : c.toNat < 128 := by
  simp only [simpleChar, Char.isAlpha, Char.isUpper, Char.isLower, Char.isDigit,
    Bool.or_eq_true, Bool.and_eq_true, decide_eq_true_eq] at h
  rcases h with ((⟨h1, h2⟩ | ⟨h1, h2⟩) | ⟨h1, h2⟩) | h1
  · exact Nat.lt_of_le_of_lt (show c.toNat ≤ 90 from h2) (by norm_num)
  · exact Nat.lt_of_le_of_lt (show c.toNat ≤ 122 from h2) (by norm_num)
  · exact Nat.lt_of_le_of_lt (show c.toNat ≤ 57 from h2) (by norm_num)
  · rw [h1]; decide

/-- ASCII facts about `[A-Za-z0-9-]` characters: lower-casing keeps them in
the class, they are never an XPath metacharacter, and upper-casing after
lower-casing agrees with plain upper-casing. -/
theorem simpleChar_facts {c : Char} (h : simpleChar c = true) :
    simpleChar c.toLower = true ∧
    c ≠ '/' ∧ c ≠ '[' ∧ c ≠ ']' ∧ c ≠ '#' ∧
    c.toLower.toUpper = c.toUpper := by
  have hlt := simpleChar_lt_128 h
  revert h
  have hall : ∀ n, n < 128 → (simpleChar (Char.ofNat n) = true →
      simpleChar (Char.ofNat n).toLower = true ∧
      Char.ofNat n ≠ '/' ∧ Char.ofNat n ≠ '[' ∧ Char.ofNat n ≠ ']' ∧
      Char.ofNat n ≠ '#' ∧
      (Char.ofNat n).toLower.toUpper = (Char.ofNat n).toUpper) := by decide
  have hres := hall c.toNat hlt
  rwa [Char.ofNat_toNat] at hres

/-- The decimal digit characters `0`–`9`: digit class, numeric value, and
distinctness from the XPath metacharacters. -/
theorem digit_char_facts : ∀ d, d < 10 →
    (Char.ofNat (48 + d)).isDigit = true ∧
    digitVal (Char.ofNat (48 + d)) = d ∧
    Char.ofNat (48 + d) ≠ '/' ∧ Char.ofNat (48 + d) ≠ '[' ∧
    Char.ofNat (48 + d) ≠ ']' := by decide

theorem isDigit_ne {c : Char} (h : c.isDigit = true) :
    c ≠ ']' ∧ c ≠ '/' ∧ c ≠ '[' ∧ simpleChar c = true := by
  have hlt : c.toNat < 128 := by
    simp only [Char.isDigit, Bool.and_eq_true, decide_eq_true_eq] at h
    exact Nat.lt_of_le_of_lt (show c.toNat ≤ 57 from h.2) (by norm_num)
  revert h
  have hall : ∀ n, n < 128 → ((Char.ofNat n).isDigit = true →
      Char.ofNat n ≠ ']' ∧ Char.ofNat n ≠ '/' ∧ Char.ofNat n ≠ '[' ∧
      simpleChar (Char.ofNat n) = true) := by decide
  have hres := hall c.toNat hlt
  rwa [Char.ofNat_toNat] at hres

theorem parseDigits_append (xs : List Char) (c : Char) :
    parseDigits (xs ++ [c]) = parseDigits xs * 10 + digitVal c := by
  simp [parseDigits, List.foldl_append]

/-- `toDigitsAux` with sufficient fuel produces a nonempty all-digit
numeral that `parseDigits` maps back to `n`. -/
theorem toDigitsAux_spec : ∀ fuel n, n < fuel →
    toDigitsAux fuel n ≠ [] ∧
    (∀ c ∈ toDigitsAux fuel n, c.isDigit = true) ∧
    parseDigits (toDigitsAux fuel n) = n := by
  intro fuel
  induction fuel with
  | zero => intro n h; omega
  | succ fuel ih =>
    intro n h
    by_cases h10 : n < 10
    · rw [toDigitsAux, if_pos h10]
      refine ⟨by simp, ?_, ?_⟩
      · intro c hc
        rw [List.mem_singleton] at hc
        rw [hc]
        exact (digit_char_facts n h10).1
      · simp only [parseDigits, List.foldl_cons, List.foldl_nil, Nat.zero_mul,
          Nat.zero_add]
        exact (digit_char_facts n h10).2.1
    · rw [toDigitsAux, if_neg h10]
      have hm : n / 10 < fuel := by omega
      obtain ⟨hne, hdig, hval⟩ := ih (n / 10) hm
      have hd := digit_char_facts (n % 10) (Nat.mod_lt n (by norm_num))
      refine ⟨by simp, ?_, ?_⟩
      · intro c hc
        rw [List.mem_append] at hc
        rcases hc with hc | hc
        · exact hdig c hc
        · rw [List.mem_singleton] at hc
          rw [hc]
          exact hd.1
      · rw [parseDigits_append, hval, hd.2.1]
        omega

theorem natToChars_spec (n : Nat) :
    natToChars n ≠ [] ∧ (∀ c ∈ natToChars n, c.isDigit = true) ∧
    parseDigits (natToChars n) = n :=
  toDigitsAux_spec (n + 1) n (Nat.lt_succ_self n)

/-- The 1-based position splits as the case-sensitive same-name count over
the strictly-previous siblings, plus one for the node itself. -/
theorem getNodePosition_take (children : List DomNode) (i : Nat) (c : DomNode)
    (hc : children[i]? = some c) :
    getNodePosition children i =
      (children.take i).countP (fun s => s.nodeName == c.nodeName) + 1 := by
  unfold getNodePosition
  have hd : children.getD i (DomNode.text []) = c := by
    rw [List.getD_eq_getElem?_getD, hc]; rfl
  rw [hd, List.take_succ, List.countP_append]
  have hl : children[i]?.toList = [c] := by rw [hc]; rfl
  rw [hl]
  simp [List.countP_cons]

/-- Walking `nthAux` over `before ++ c :: after` with target index
`mi + (matches in before) + 1` lands exactly on `c`. -/
theorem nthAux_finds (c : DomNode) (upperName : List Char)
    (hc : c.nodeName.map Char.toUpper = upperName) :
    ∀ (before after : List DomNode) (mi : Int),
      nthAux (before ++ c :: after) upperName
        (mi + ((before.countP (fun s =>
          s.nodeName.map Char.toUpper == upperName) : Nat) : Int) + 1) mi
        = some c := by
  intro before
  induction before with
  | nil =>
    intro after mi
    simp only [List.nil_append, List.countP_nil, Nat.cast_zero, add_zero, nthAux]
    rw [if_pos (by rw [hc]; exact beq_self_eq_true _)]
    simp
  | cons b bs ih =>
    intro after mi
    rw [List.cons_append]
    by_cases hb : (b.nodeName.map Char.toUpper == upperName) = true
    · rw [nthAux, if_pos hb]
      have hcnt : (bs.countP (fun s => s.nodeName.map Char.toUpper == upperName) : Int)
          ≥ 0 := Int.natCast_nonneg _
      rw [List.countP_cons, hb, if_pos rfl]
      rw [if_neg (by push_cast; omega)]
      have hih := ih after (mi + 1)
      have harg : mi + ((bs.countP (fun s =>
            s.nodeName.map Char.toUpper == upperName) + 1 : Nat) : Int) + 1
          = (mi + 1) + ((bs.countP (fun s =>
            s.nodeName.map Char.toUpper == upperName) : Nat) : Int) + 1 := by
        push_cast; ring
      rw [harg]
      exact hih
    · rw [nthAux, if_neg hb]
      have hcnt : (b :: bs).countP (fun s => s.nodeName.map Char.toUpper == upperName)
          = bs.countP (fun s => s.nodeName.map Char.toUpper == upperName) := by
        rw [List.countP_cons]
        simp [hb]
      rw [List.countP_cons]
      simp only [hb, if_false, Nat.add_zero]
      exact ih after mi

/-- Under case-consistency of the preceding siblings, the case-insensitive
count over preceding element siblings equals the case-sensitive count over
all preceding siblings. -/
theorem countP_elements_eq (children : List DomNode) (i : Nat) (tag : List Char)
    (htag : ∀ ch ∈ tag, simpleChar ch = true)
    (hcons : ∀ s ∈ children.take i, isElementNode s = true →
      s.nodeName.map Char.toUpper = tag.map Char.toUpper → s.nodeName = tag) :
    ((children.take i).filter isElementNode).countP
        (fun s => s.nodeName.map Char.toUpper == tag.map Char.toUpper)
      = (children.take i).countP (fun s => s.nodeName == tag) := by
  rw [List.countP_eq_length_filter, List.filter_filter,
    ← List.countP_eq_length_filter]
  apply List.countP_congr
  intro s hs
  constructor
  · intro h
    simp only [Bool.and_eq_true, beq_iff_eq] at h
    obtain ⟨h1, h2⟩ := h
    exact beq_iff_eq.mpr (hcons s hs h2 h1)
  · intro h
    rw [beq_iff_eq] at h
    have helem : isElementNode s = true := by
      cases s with
      | element t cs => rfl
      | text d =>
        exfalso
        have h0 : '#' ∈ (DomNode.text d).nodeName := by
          show '#' ∈ "#text".data
          decide
        exact absurd (htag '#' (h ▸ h0)) (by decide)
      | comment d =>
        exfalso
        have h0 : '#' ∈ (DomNode.comment d).nodeName := by
          show '#' ∈ "#comment".data
          decide
        exact absurd (htag '#' (h ▸ h0)) (by decide)
    simp only [Bool.and_eq_true, beq_iff_eq]
    exact ⟨congrArg (List.map Char.toUpper) h, helem⟩

/-- The element-children list splits around the element at index `i`. -/
theorem filter_take_drop (children : List DomNode) (i : Nat) (c : DomNode)
    (hc : children[i]? = some c) (hel : isElementNode c = true) :
    children.filter isElementNode =
      (children.take i).filter isElementNode ++
        c :: (children.drop (i + 1)).filter isElementNode := by
  obtain ⟨hlt, hget⟩ := List.getElem?_eq_some.mp hc
  conv_lhs => rw [← List.take_append_drop i children]
  rw [List.filter_append]
  congr 1
  rw [← List.getElem_cons_drop children i hlt, hget]
  simp [List.filter_cons, hel]

/-- For the element at child index `i`, `nthChildOfType` applied to the
lower-cased tag and the 0-based index `getNodePosition − 1` recovers
exactly that element, provided no preceding sibling's tag collides with it
case-insensitively without being equal. -/
theorem nth_step (ptag tag : List Char) (children cc : List DomNode) (i : Nat)
    (hc : children[i]? = some (DomNode.element tag cc))
    (htag : ∀ ch ∈ tag, simpleChar ch = true)
    (hcons : ∀ s ∈ children.take i, isElementNode s = true →
      s.nodeName.map Char.toUpper = tag.map Char.toUpper → s.nodeName = tag) :
    nthChildOfType (DomNode.element ptag children) (tag.map Char.toLower)
      ((getNodePosition children i : Int) - 1) = some (DomNode.element tag cc) := by
  unfold nthChildOfType
  have hupper : (tag.map Char.toLower).map Char.toUpper = tag.map Char.toUpper := by
    rw [List.map_map]
    apply List.map_congr_left
    intro ch hch
    show Char.toUpper (Char.toLower ch) = Char.toUpper ch
    exact (simpleChar_facts (htag ch hch)).2.2.2.2.2
  rw [hupper]
  show nthAux (children.filter isElementNode) (tag.map Char.toUpper) _ (-1) = _
  rw [filter_take_drop children i _ hc rfl]
  have hpos := getNodePosition_take children i _ hc
  have hcnt := countP_elements_eq children i tag htag hcons
  have key := nthAux_finds (DomNode.element tag cc) (tag.map Char.toUpper) rfl
    ((children.take i).filter isElementNode)
    ((children.drop (i + 1)).filter isElementNode) (-1)
  have harg : ((getNodePosition children i : Int)) - 1 =
      -1 + ((((children.take i).filter isElementNode).countP
        (fun s => s.nodeName.map Char.toUpper == tag.map Char.toUpper) : Nat) : Int)
        + 1 := by
    rw [hcnt, hpos]
    have hnn : (DomNode.element tag cc).nodeName = tag := rfl
    rw [hnn]
    push_cast
    ring
  rw [harg]
  exact key

theorem firstMatch_singleton (ch : Char) :
    ∀ (xs ys : List Char), ch ∉ xs →
      firstMatch (xs ++ ch :: ys) [ch] = some xs.length := by
  intro xs
  induction xs with
  | nil =>
    intro ys _
    rw [List.nil_append, firstMatch]
    rw [if_pos (by simp [List.isPrefixOf])]
    rfl
  | cons x xs ih =>
    intro ys h
    rw [List.cons_append, firstMatch]
    rw [if_neg (by
      simp only [List.isPrefixOf, Bool.and_eq_true, beq_iff_eq]
      intro hx
      exact h (hx.1 ▸ List.mem_cons_self x xs))]
    show ((firstMatch (xs ++ ch :: ys) [ch]).map (· + 1)) = some (x :: xs).length
    rw [ih ys (fun hm => h (List.mem_cons_of_mem x hm))]
    rfl

/-- Parsing a well-shaped `name[ds]` segment: positions of `[` and `]`,
the extracted name, and the extracted numeral. -/
theorem evalSeg_parse (name ds : List Char)
    (hnb : '[' ∉ name) (hne : ']' ∉ name) (hde : ']' ∉ ds) :
    idxOfChar (name ++ '[' :: ds ++ [']']) '[' = some name.length ∧
    (name ++ '[' :: ds ++ [']']).take name.length = name ∧
    idxOfChar (name ++ '[' :: ds ++ [']']) ']'
      = some (name ++ ('[' :: ds)).length ∧
    jsSlice (name ++ '[' :: ds ++ [']']) (name.length + 1)
      (name ++ ('[' :: ds)).length = ds := by
  have hassoc : name ++ '[' :: ds ++ [']'] = name ++ ('[' :: (ds ++ [']'])) := by
    rw [List.append_assoc]
    rfl
  refine ⟨?_, ?_, ?_, ?_⟩
  · rw [hassoc]
    exact firstMatch_singleton '[' name (ds ++ [']']) hnb
  · rw [hassoc]
    exact List.take_left name _
  · have hmem : ']' ∉ name ++ ('[' :: ds) := by
      intro hm
      rcases List.mem_append.mp hm with hm | hm
      · exact hne hm
      · rcases List.mem_cons.mp hm with hm | hm
        · exact absurd hm (by decide)
        · exact hde hm
    exact firstMatch_singleton ']' (name ++ ('[' :: ds)) [] hmem
  · unfold jsSlice
    have hd : (name ++ '[' :: ds ++ [']']).drop (name.length + 1) = ds ++ [']'] := by
      rw [hassoc]
      rw [show name.length + 1 = (name ++ ['[']).length by simp]
      rw [show name ++ ('[' :: (ds ++ [']'])) = (name ++ ['[']) ++ (ds ++ [']']) by
        rw [List.append_assoc]; rfl]
      exact List.drop_left _ _
    rw [hd]
    rw [show (name ++ ('[' :: ds)).length - (name.length + 1) = ds.length by
      simp only [List.length_append, List.length_cons]; omega]
    exact List.take_left ds _

/-- `getNodeName` of an element with a `[A-Za-z0-9-]` tag is the
lower-cased tag (never the `#text` special case). -/
theorem getNodeName_element (tag : List Char) (cc : List DomNode)
    (hts : ∀ ch ∈ tag, simpleChar ch = true) :
    getNodeName (DomNode.element tag cc) = tag.map Char.toLower := by
  unfold getNodeName
  show (if (DomNode.element tag cc).nodeName.map Char.toLower = "#text".data
    then "text()".data else (DomNode.element tag cc).nodeName.map Char.toLower)
      = tag.map Char.toLower
  rw [if_neg]
  · rfl
  intro habs
  have hm : '#' ∈ tag.map Char.toLower := by
    show '#' ∈ (DomNode.element tag cc).nodeName.map Char.toLower
    rw [habs]
    decide
  obtain ⟨ch, hch, hlow⟩ := List.mem_map.mp hm
  have hf := (simpleChar_facts (hts ch hch)).1
  exact (simpleChar_facts hf).2.2.2.2.1 hlow

/-- Facts about a lower-cased `[A-Za-z0-9-]` tag. -/
theorem lowered_tag_facts (tag : List Char)
    (hts : ∀ ch ∈ tag, simpleChar ch = true) :
    (∀ c ∈ tag.map Char.toLower, simpleChar c = true) ∧
    '[' ∉ tag.map Char.toLower ∧ ']' ∉ tag.map Char.toLower ∧
    '/' ∉ tag.map Char.toLower := by
  have hlow : ∀ c ∈ tag.map Char.toLower, simpleChar c = true := by
    intro c hcm
    obtain ⟨ch, hch, rfl⟩ := List.mem_map.mp hcm
    exact (simpleChar_facts (hts ch hch)).1
  refine ⟨hlow, ?_, ?_, ?_⟩
  · intro hm
    exact (simpleChar_facts (hlow '[' hm)).2.2.1 rfl
  · intro hm
    exact (simpleChar_facts (hlow ']' hm)).2.2.2.1 rfl
  · intro hm
    exact (simpleChar_facts (hlow '/' hm)).2.1 rfl

/-- `getPathSegment` at an element child with a `[A-Za-z0-9-]` tag. -/
theorem getPathSegment_element (children : List DomNode) (i : Nat)
    (tag : List Char) (cc : List DomNode)
    (hc : children[i]? = some (DomNode.element tag cc))
    (hts : ∀ ch ∈ tag, simpleChar ch = true) :
    getPathSegment children i =
      tag.map Char.toLower ++
        '[' :: natToChars (getNodePosition children i) ++ [']'] := by
  unfold getPathSegment
  have hd : children.getD i (DomNode.text []) = DomNode.element tag cc := by
    rw [List.getD_eq_getElem?_getD, hc]; rfl
  rw [hd, getNodeName_element tag cc hts]

/-- Consuming a run of `[A-Za-z0-9-]` characters keeps the simple-XPath
DFA in state 2. -/
theorem xpathAccept_simple_run :
    ∀ (cs tail : List Char), (∀ c ∈ cs, simpleChar c = true) →
      xpathAccept 2 (cs ++ tail) = xpathAccept 2 tail := by
  intro cs
  induction cs with
  | nil => intro tail _; rfl
  | cons c cs ih =>
    intro tail h
    rw [List.cons_append]
    show (if (2 : Nat) = 0 then _ else _) = _
    rw [if_neg (by norm_num), if_neg (by norm_num), if_pos rfl,
      if_pos (h c (List.mem_cons_self c cs))]
    exact ih tail (fun x hx => h x (List.mem_cons_of_mem c hx))

/-- Consuming a run of digits keeps the simple-XPath DFA in state 4. -/
theorem xpathAccept_digit_run :
    ∀ (cs tail : List Char), (∀ c ∈ cs, c.isDigit = true) →
      xpathAccept 4 (cs ++ tail) = xpathAccept 4 tail := by
  intro cs
  induction cs with
  | nil => intro tail _; rfl
  | cons c cs ih =>
    intro tail h
    rw [List.cons_append]
    show (if (4 : Nat) = 0 then _ else _) = _
    rw [if_neg (by norm_num), if_neg (by norm_num), if_neg (by norm_num),
      if_neg (by norm_num), if_pos rfl, if_pos (h c (List.mem_cons_self c cs))]
    exact ih tail (fun x hx => h x (List.mem_cons_of_mem c hx))

/-- From state 1 (just after a `/`), a well-formed `name[ds]` segment is
consumed entirely, ending in state 5. -/
theorem xpathAccept_segment (name ds tail : List Char)
    (hn : name ≠ []) (hns : ∀ c ∈ name, simpleChar c = true)
    (hd : ds ≠ []) (hdd : ∀ c ∈ ds, c.isDigit = true) :
    xpathAccept 1 ((name ++ '[' :: ds ++ [']']) ++ tail) = xpathAccept 5 tail := by
  obtain ⟨n0, ns, rfl⟩ := List.exists_cons_of_ne_nil hn
  obtain ⟨d0, dss, rfl⟩ := List.exists_cons_of_ne_nil hd
  rw [show ((n0 :: ns) ++ '[' :: (d0 :: dss) ++ [']']) ++ tail
      = n0 :: (ns ++ ('[' :: (d0 :: (dss ++ (']' :: tail))))) by
    simp]
  show (if (1 : Nat) = 0 then _ else _) = _
  rw [if_neg (by norm_num), if_pos rfl,
    if_pos (hns n0 (List.mem_cons_self n0 ns))]
  rw [xpathAccept_simple_run ns _ (fun x hx => hns x (List.mem_cons_of_mem n0 hx))]
  show (if (2 : Nat) = 0 then _ else _) = _
  rw [if_neg (by norm_num), if_neg (by norm_num), if_pos rfl,
    if_neg (by decide), if_pos rfl]
  show (if (3 : Nat) = 0 then _ else _) = _
  rw [if_neg (by norm_num), if_neg (by norm_num), if_neg (by norm_num),
    if_pos rfl, if_pos (hdd d0 (List.mem_cons_self d0 dss))]
  rw [xpathAccept_digit_run dss _ (fun x hx => hdd x (List.mem_cons_of_mem d0 hx))]
  show (if (4 : Nat) = 0 then _ else _) = _
  rw [if_neg (by norm_num), if_neg (by norm_num), if_neg (by norm_num),
    if_neg (by norm_num), if_pos rfl, if_neg (by decide), if_pos rfl]

/-- The slash-joined well-formed segments are accepted from state 1. -/
theorem xpathAccept_join :
    ∀ segs : List (List Char), segs ≠ [] → (∀ seg ∈ segs, SegGood seg) →
      xpathAccept 1 (joinSegs segs) = true := by
  intro segs
  induction segs with
  | nil => intro h _; exact absurd rfl h
  | cons s rest ih =>
    intro _ hgood
    obtain ⟨name, ds, hshape, hn, hns, hd, hdd⟩ :=
      hgood s (List.mem_cons_self s rest)
    cases rest with
    | nil =>
      show xpathAccept 1 s = true
      rw [hshape, show name ++ '[' :: ds ++ [']']
        = (name ++ '[' :: ds ++ [']']) ++ [] by simp]
      rw [xpathAccept_segment name ds [] hn hns hd hdd]
      rfl
    | cons r rrest =>
      show xpathAccept 1 (s ++ '/' :: joinSegs (r :: rrest)) = true
      rw [hshape]
      rw [xpathAccept_segment name ds _ hn hns hd hdd]
      show (if (5 : Nat) = 0 then _ else _) = _
      rw [if_neg (by norm_num), if_neg (by norm_num), if_neg (by norm_num),
        if_neg (by norm_num), if_neg (by norm_num), if_pos rfl, if_pos rfl]
      exact ih (by simp) (fun seg hseg => hgood seg (List.mem_cons_of_mem s hseg))

theorem foldr_slash_eq (s : List Char) (rest : List (List Char)) :
    (s :: rest).foldr (fun seg acc => seg ++ '/' :: acc) [] =
      joinSegs (s :: rest) ++ ['/'] := by
  induction rest generalizing s with
  | nil => rfl
  | cons r rrest ih =>
    show s ++ '/' :: ((r :: rrest).foldr (fun seg acc => seg ++ '/' :: acc) [])
      = joinSegs (s :: r :: rrest) ++ ['/']
    rw [ih r]
    show s ++ '/' :: (joinSegs (r :: rrest) ++ ['/'])
      = (s ++ '/' :: joinSegs (r :: rrest)) ++ ['/']
    simp

/-- `buildXPath` of a nonempty segment list: a leading slash followed by
the slash-joined segments (the trailing slash is removed). -/
theorem buildXPath_cons (s : List Char) (rest : List (List Char)) :
    buildXPath (s :: rest) = '/' :: joinSegs (s :: rest) := by
  show (if ('/' :: (s :: rest).foldr (fun seg acc => seg ++ '/' :: acc) []).getLast?
      = some '/'
    then ('/' :: (s :: rest).foldr (fun seg acc => seg ++ '/' :: acc) []).dropLast
    else '/' :: (s :: rest).foldr (fun seg acc => seg ++ '/' :: acc) [])
      = '/' :: joinSegs (s :: rest)
  rw [foldr_slash_eq s rest]
  rw [show ('/' :: (joinSegs (s :: rest) ++ ['/']))
    = ('/' :: joinSegs (s :: rest)) ++ ['/'] from rfl]
  rw [List.getLast?_concat, if_pos rfl, List.dropLast_concat]

theorem splitSlash_no_slash :
    ∀ xs : List Char, '/' ∉ xs → splitSlash xs = [xs] := by
  intro xs
  induction xs with
  | nil => intro _; rfl
  | cons c rest ih =>
    intro h
    have hc : ¬(c = '/') := fun hh => h (hh ▸ List.mem_cons_self c rest)
    rw [splitSlash, if_neg hc, ih (fun hm => h (List.mem_cons_of_mem c hm))]

theorem splitSlash_append (xs ys : List Char) (h : '/' ∉ xs) :
    splitSlash (xs ++ '/' :: ys) = xs :: splitSlash ys := by
  induction xs with
  | nil =>
    rw [List.nil_append, splitSlash, if_pos rfl]
  | cons c rest ih =>
    have hc : ¬(c = '/') := fun hh => h (hh ▸ List.mem_cons_self c rest)
    rw [List.cons_append, splitSlash, if_neg hc,
      ih (fun hm => h (List.mem_cons_of_mem c hm))]

/-- Splitting the slash-joined segments on `/` recovers the segments,
provided no segment contains a slash. -/
theorem splitSlash_join :
    ∀ segs : List (List Char), segs ≠ [] → (∀ seg ∈ segs, '/' ∉ seg) →
      splitSlash (joinSegs segs) = segs := by
  intro segs
  induction segs with
  | nil => intro h _; exact absurd rfl h
  | cons s rest ih =>
    intro _ hno
    cases rest with
    | nil =>
      show splitSlash s = [s]
      exact splitSlash_no_slash s (hno s (List.mem_cons_self s []))
    | cons r rrest =>
      show splitSlash (s ++ '/' :: joinSegs (r :: rrest)) = s :: r :: rrest
      rw [splitSlash_append s _ (hno s (List.mem_cons_self s _))]
      rw [ih (by simp) (fun seg hseg => hno seg (List.mem_cons_of_mem s hseg))]

/-- No slash occurs in a well-formed segment. -/
theorem segGood_no_slash (seg : List Char) (h : SegGood seg) : '/' ∉ seg := by
  obtain ⟨name, ds, rfl, _, hns, _, hdd⟩ := h
  intro hm
  rw [show name ++ '[' :: ds ++ [']'] = name ++ ('[' :: (ds ++ [']'])) by
    rw [List.append_assoc]; rfl] at hm
  rcases List.mem_append.mp hm with hm | hm
  · exact (simpleChar_facts (hns '/' hm)).2.1 rfl
  · rcases List.mem_cons.mp hm with hm | hm
    · exact absurd hm (by decide)
    · rcases List.mem_append.mp hm with hm | hm
      · exact (isDigit_ne (hdd '/' hm)).2.1 rfl
      · rcases List.mem_singleton.mp hm with hm
        exact absurd hm (by decide)

theorem evalSegments_cons_bracket (segment : List Char)
    (rest : List (List Char)) (element : DomNode) (p q : Nat)
    (h1 : idxOfChar segment '[' = some p)
    (h2 : idxOfChar segment ']' = some q) :
    evalSegments (segment :: rest) element =
      (if ((parseDigits (jsSlice segment (p + 1) q) : Int) - 1) < 0 then none
       else
         match nthChildOfType element (segment.take p)
             ((parseDigits (jsSlice segment (p + 1) q) : Int) - 1) with
         | none => none
         | some child => evalSegments rest child) := by
  rw [evalSegments, h1, h2]

/-- Evaluating the segment built for the element at child index `i` steps
exactly into that element. -/
theorem evalSegments_step (ptag tag : List Char) (children cc : List DomNode)
    (i : Nat) (rest : List (List Char))
    (hc : children[i]? = some (DomNode.element tag cc))
    (hts : ∀ ch ∈ tag, simpleChar ch = true)
    (hcons : ∀ s ∈ children.take i, isElementNode s = true →
      s.nodeName.map Char.toUpper = tag.map Char.toUpper → s.nodeName = tag) :
    evalSegments (getPathSegment children i :: rest)
        (DomNode.element ptag children)
      = evalSegments rest (DomNode.element tag cc) := by
  obtain ⟨hlow, hnb, hne2, hns⟩ := lowered_tag_facts tag hts
  obtain ⟨hdne, hdd, hdval⟩ := natToChars_spec (getNodePosition children i)
  have hde : ']' ∉ natToChars (getNodePosition children i) :=
    fun hm => (isDigit_ne (hdd ']' hm)).1 rfl
  obtain ⟨hp1, hp2, hp3, hp4⟩ :=
    evalSeg_parse (tag.map Char.toLower) (natToChars (getNodePosition children i))
      hnb hne2 hde
  rw [getPathSegment_element children i tag cc hc hts]
  rw [evalSegments_cons_bracket _ rest _ (tag.map Char.toLower).length
    ((tag.map Char.toLower) ++ ('[' :: natToChars (getNodePosition children i))).length
    hp1 hp3]
  rw [hp4, hp2, hdval]
  have hpos := getNodePosition_take children i _ hc
  have hge : 1 ≤ getNodePosition children i := by rw [hpos]; omega
  rw [if_neg (by omega)]
  rw [nth_step ptag tag children cc i hc hts hcons]

theorem xpathSegments_cons_shape {i : Nat} {rest : List Nat} {node : DomNode}
    {segs : List (List Char)}
    (h : xpathSegments (i :: rest) node = some segs) : segs ≠ [] := by
  cases node with
  | element t children =>
    rw [xpathSegments] at h
    cases hc : children[i]? with
    | none => rw [hc] at h; exact absurd h (by simp)
    | some c =>
      rw [hc] at h
      obtain ⟨a, _, ha⟩ := Option.map_eq_some'.mp h
      rw [← ha]
      simp
  | text d => simp [xpathSegments] at h
  | comment d => simp [xpathSegments] at h

/-- The induction behind the amended C10: along a good path the collected
segments are well formed and evaluating them from the same node lands on
the path's endpoint. -/
theorem roundtrip_aux : ∀ (path : List Nat) (node e : DomNode),
    goodPath node path → nodeAtPath node path = some e →
    ∃ segs, xpathSegments path node = some segs ∧
      (∀ seg ∈ segs, SegGood seg) ∧
      evalSegments segs node = some e := by
  intro path
  induction path with
  | nil =>
    intro node e _ he
    simp only [nodeAtPath, Option.some.injEq] at he
    refine ⟨[], rfl, ?_, ?_⟩
    · intro seg hseg
      exact absurd hseg (List.not_mem_nil seg)
    · rw [show evalSegments [] node = some node from rfl, he]
  | cons i rest ih =>
    intro node e hgood he
    cases node with
    | text d => exact absurd hgood (by simp [goodPath])
    | comment d => exact absurd hgood (by simp [goodPath])
    | element ptag children =>
      cases hc : children[i]? with
      | none =>
        rw [goodPath] at hgood
        rw [hc] at hgood
        exact hgood.elim
      | some c =>
        simp only [goodPath, hc] at hgood
        obtain ⟨hstep, hrest⟩ := hgood
        cases c with
        | text d => simp only [goodStep, hc] at hstep
        | comment d => simp only [goodStep, hc] at hstep
        | element tag cc =>
          simp only [goodStep, hc] at hstep
          obtain ⟨htne, hts, hcons⟩ := hstep
          have he' : nodeAtPath (DomNode.element tag cc) rest = some e := by
            simp only [nodeAtPath, hc] at he
            exact he
          obtain ⟨segs, h1, h2, h3⟩ := ih (DomNode.element tag cc) e hrest he'
          refine ⟨getPathSegment children i :: segs, ?_, ?_, ?_⟩
          · simp only [xpathSegments, hc, h1, Option.map_some']
          · intro seg hseg
            rcases List.mem_cons.mp hseg with heq | hmem
            · rw [heq, getPathSegment_element children i tag cc hc hts]
              refine ⟨tag.map Char.toLower,
                natToChars (getNodePosition children i), rfl, ?_,
                (lowered_tag_facts tag hts).1,
                (natToChars_spec (getNodePosition children i)).1,
                (natToChars_spec (getNodePosition children i)).2.1⟩
              intro hh
              exact htne (List.map_eq_nil_iff.mp hh)
            · exact h2 seg hmem
          · rw [evalSegments_step ptag tag children cc i segs hc hts hcons]
            exact h3

/-- **C10** (amended): for every element reached from `root` by a
nonempty child-index path all of whose steps are `goodStep`s — each step's
child is an element with a nonempty `[A-Za-z0-9-]` tag, and no earlier
sibling's node name matches that tag case-insensitively while differing
from it — evaluating `evaluateSimpleXPath` on the path built by
`xpathFromNode` starting from `root` returns exactly that element: the
round trip succeeds, the case-sensitive `previousSibling` occurrence index
agreeing with the case-insensitive nth-matching-child lookup.  (Without
the case-consistency proviso the round trip can fail; see
`C10_xpath_roundtrip_counterexample`.) -/
theorem C10_xpath_roundtrip (root : DomNode) (path : List Nat) (e : DomNode)
    (hne : path ≠ []) (hgood : goodPath root path)
    (he : nodeAtPath root path = some e) :
    ∃ xp, xpathFromNode root path = some xp ∧
      evaluateSimpleXPath xp root = .ok (some e) := by
  obtain ⟨segs, h1, h2, h3⟩ := roundtrip_aux path root e hgood he
  have hsne : segs ≠ [] := by
    cases path with
    | nil => exact absurd rfl hne
    | cons i rest => exact xpathSegments_cons_shape h1
  obtain ⟨s0, srest, rfl⟩ := List.exists_cons_of_ne_nil hsne
  refine ⟨buildXPath (s0 :: srest), ?_, ?_⟩
  · rw [xpathFromNode, h1, Option.map_some']
  · rw [buildXPath_cons]
    have hsimple : isSimpleXPath ('/' :: joinSegs (s0 :: srest)) = true := by
      rw [isSimpleXPath, xpathAccept, if_pos rfl, if_pos rfl]
      exact xpathAccept_join (s0 :: srest) (by simp) h2
    rw [evaluateSimpleXPath, if_neg (by simp [hsimple])]
    rw [show splitSlash ('/' :: joinSegs (s0 :: srest))
      = [] :: splitSlash (joinSegs (s0 :: srest)) from by
        rw [splitSlash, if_pos rfl]]
    rw [splitSlash_join (s0 :: srest) (by simp)
      (fun seg hseg => segGood_no_slash seg (h2 seg hseg))]
    show Except.ok (evalSegments (s0 :: srest) root) = Except.ok (some e)
    rw [h3]

theorem C10_xpath_roundtrip_witness :
    ∃ xp, xpathFromNode c10WitnessRoot [1, 0] = some xp ∧
      evaluateSimpleXPath xp c10WitnessRoot =
        .ok (some (DomNode.element "p".data [])) :=
  C10_xpath_roundtrip c10WitnessRoot [1, 0] (DomNode.element "p".data [])
    (by decide)
    (by refine ⟨⟨?_, ?_, ?_⟩, ⟨?_, ?_, ?_⟩, trivial⟩ <;> decide)
    rfl

end Annotator

